import Mathlib

/-!
Verification of the sandboxed file-repository service
(listing route, upload route, archive route) against its specification.

Paths are modelled as lists of characters (`Str`).  The helper functions
`segs`, `renderSegs`, `normStack`, `pnormalize`, `pjoin`, `presolve`
embed Node's POSIX `path.normalize`, `path.join` and `path.resolve`
(the latter restricted to absolute inputs, as the sandbox root is an
absolute path).  The route handlers are embedded as pure functions over
explicit filesystem snapshots.
-/

namespace FB

abbrev Str := List Char

/-- Split a character list on the POSIX separator. Mirrors splitting a
path into segments: `segs "a/b" = ["a","b"]`, `segs "" = [""]`. -/
def segs : Str → List Str
  | [] => [[]]
  | c :: t =>
    if c = '/' then [] :: segs t
    else
      match segs t with
      | s :: ss => (c :: s) :: ss
      | [] => [[c]]

/-- Join segments with the POSIX separator (inverse of `segs` on
slash-free segments). -/
def renderSegs : List Str → Str
  | [] => []
  | [s] => s
  | s :: ss => s ++ '/' :: renderSegs ss

/-- One step of Node's `normalizeString` over a stack of kept segments
(stored head = top).  `".."` pops a normal segment, stacks on top of
`".."` or an empty stack when `allowAbove` is true, and is dropped
otherwise.  Empty segments and `"."` are skipped. -/
def normStep (allowAbove : Bool) (stack : List Str) (seg : Str) : List Str :=
  if seg = [] ∨ seg = ['.'] then stack
  else if seg = ['.', '.'] then
    match stack with
    | [] => if allowAbove then [['.', '.']] else []
    | top :: stk => if top = ['.', '.'] then seg :: top :: stk else stk
  else seg :: stack

/-- Process all segments, starting from a given stack. -/
def normAux (allowAbove : Bool) (stack : List Str) (l : List Str) : List Str :=
  l.foldl (normStep allowAbove) stack

/-- Node `normalizeString`: the resolved segment list, in order. -/
def normStack (allowAbove : Bool) (l : List Str) : List Str :=
  (normAux allowAbove [] l).reverse

/-- Reassemble a normalized path from its absolute/trailing-separator
flags and resolved segments (the tail of Node's `normalize`). -/
def assemble (abs trail : Bool) (core : List Str) : Str :=
  if core = [] then
    if abs then ['/'] else if trail then ['.', '/'] else ['.']
  else
    if abs then '/' :: (renderSegs core ++ (if trail then ['/'] else []))
    else renderSegs core ++ (if trail then ['/'] else [])

/-- Node POSIX `path.normalize`. -/
def pnormalize (p : Str) : Str :=
  if p = [] then ['.']
  else
    assemble (p.head? == some '/') (p.getLast? == some '/')
      (normStack (!(p.head? == some '/')) (segs p))

/-- The route's sanitizing regex replacement
`path.normalize(requestedPath).replace(/^(\.\.[/\\])+/, "")`:
greedily strip leading `"../"` / `"..\"` units. -/
def stripDots : Str → Str
  | [] => []
  | [c] => [c]
  | [c, d] => [c, d]
  | c :: d :: e :: t =>
    if c = '.' ∧ d = '.' ∧ (e = '/' ∨ e = '\\') then stripDots t
    else c :: d :: e :: t

/-- Node POSIX `path.join` on two parts: empty parts are dropped, the
rest are concatenated with a separator and normalized. -/
def pjoin (a b : Str) : Str :=
  let joined := if a = [] then b else if b = [] then a else a ++ '/' :: b
  if joined = [] then ['.'] else pnormalize joined

/-- Node POSIX `path.resolve` on an absolute input: resolve all
segments with no parent links above the root. -/
def presolve (p : Str) : Str :=
  '/' :: renderSegs (normStack false (segs p))

/-- The canonical absolute path with segment list `R`. -/
def mkRoot (R : List Str) : Str :=
  '/' :: renderSegs R

/-- A well-formed canonical path segment: nonempty, not a dot link,
and separator-free. -/
def segOK (s : Str) : Prop :=
  s ≠ [] ∧ s ≠ ['.'] ∧ s ≠ ['.', '.'] ∧ '/' ∉ s

instance (s : Str) : Decidable (segOK s) := by
  unfold segOK; infer_instance

/-- The containment test of the listing route (line 145 of the files
route): `resolvedPath.startsWith(resolvedRoot)`, a plain non-strict
string-prefix comparison of the resolved absolute values. -/
def containmentCheck (resolvedRoot resolvedPath : Str) : Bool :=
  resolvedRoot.isPrefixOf resolvedPath

/-- Path handling of the listing route (lines 106 and 120-156): default
the requested path to "/", normalize it, strip leading parent links,
join under the sandbox root, resolve, and compare against the resolved
root; `none` models the 400 "Invalid path" rejection. -/
def resolveListingPath (root req : Str) : Option Str :=
  if containmentCheck (presolve root)
      (presolve (pjoin root (stripDots (pnormalize (if req = [] then ['/'] else req))))) then
    some (presolve (pjoin root (stripDots (pnormalize (if req = [] then ['/'] else req)))))
  else none

-- Sanity checks of the path model against Node's documented behavior.
example : pnormalize "/foo/bar//baz/asdf/quux/..".data = "/foo/bar/baz/asdf".data := by decide
example : pnormalize "a/../../b".data = "../b".data := by decide
example : pnormalize "/../a".data = "/a".data := by decide
example : pnormalize "".data = ".".data := by decide
example : pnormalize "a/..".data = ".".data := by decide
example : pnormalize "a/../".data = "./".data := by decide
example : pnormalize "a//b/".data = "a/b/".data := by decide
example : pnormalize "/".data = "/".data := by decide
example : pjoin "/data".data "/x".data = "/data/x".data := by decide
example : pjoin "/data".data "..".data = "/".data := by decide
example : pjoin "/data/a".data "..".data = "/data".data := by decide
example : presolve "/data//x/./y/..".data = "/data/x".data := by decide
example : stripDots "../..\\x".data = "x".data := by decide
example : stripDots "..".data = "..".data := by decide
example : resolveListingPath "/app/public/files".data "/demo".data
    = some "/app/public/files/demo".data := by decide
example : resolveListingPath "/app/public/files".data "..".data = none := by decide

/-! ### Segment toolkit -/

/-- The parent-link segment `".."`. -/
def dd : Str := ['.', '.']

theorem segs_ne_nil (l : Str) : segs l ≠ [] := by
  induction l with
  | nil => simp [segs]
  | cons c t ih =>
    by_cases h : c = '/'
    · simp [segs, h]
    · simp only [segs, if_neg h]
      cases hs : segs t with
      | nil => simp
      | cons s ss => simp

theorem segs_cons_slash (t : Str) : segs ('/' :: t) = [] :: segs t := by
  simp [segs]

theorem segs_cons_ne (c : Char) (t : Str) (h : c ≠ '/') :
    segs (c :: t) = (c :: (segs t).headI) :: (segs t).tail := by
  simp only [segs, if_neg h]
  cases hs : segs t with
  | nil => exact absurd hs (segs_ne_nil t)
  | cons s ss => simp

theorem segs_tail_ne (c : Char) (t : Str) (h : c ≠ '/') :
    (segs (c :: t)).tail = (segs t).tail := by
  rw [segs_cons_ne c t h]
  rfl

theorem segs_append_slash (a b : Str) : segs (a ++ '/' :: b) = segs a ++ segs b := by
  induction a with
  | nil => simp [segs_cons_slash, segs]
  | cons c t ih =>
    by_cases h : c = '/'
    · subst h
      simp only [List.cons_append, segs_cons_slash, ih]
    · rw [List.cons_append, segs_cons_ne c _ h, segs_cons_ne c t h, ih]
      cases hs : segs t with
      | nil => exact absurd hs (segs_ne_nil t)
      | cons s ss => simp

theorem segs_no_slash (l : Str) : ∀ s ∈ segs l, '/' ∉ s := by
  induction l with
  | nil => simp [segs]
  | cons c t ih =>
    by_cases h : c = '/'
    · subst h
      rw [segs_cons_slash]
      intro s hs
      rcases List.mem_cons.mp hs with rfl | hs
      · simp
      · exact ih s hs
    · rw [segs_cons_ne c t h]
      cases hst : segs t with
      | nil => exact absurd hst (segs_ne_nil t)
      | cons s0 ss0 =>
        intro s hs
        simp only [hst, List.headI, List.tail] at hs
        rcases List.mem_cons.mp hs with rfl | hs
        · intro hmem
          rcases List.mem_cons.mp hmem with h' | h'
          · exact h h'.symm
          · exact ih s0 (hst ▸ List.mem_cons_self _ _) h'
        · exact ih s (hst ▸ List.mem_cons_of_mem _ hs)

theorem segs_headI_takeWhile (l : Str) :
    (segs l).headI = l.takeWhile (fun c => !(c == '/')) := by
  induction l with
  | nil => simp [segs]
  | cons c t ih =>
    by_cases h : c = '/'
    · subst h; simp [segs_cons_slash, List.takeWhile]
    · rw [segs_cons_ne c t h]
      have hb : (c == '/') = false := beq_eq_false_iff_ne.mpr h
      simp [List.takeWhile, hb, ih]

theorem segs_no_slash_self (s : Str) (h : '/' ∉ s) : segs s = [s] := by
  induction s with
  | nil => simp [segs]
  | cons c t ih =>
    have hc : c ≠ '/' := fun hh => h (hh ▸ List.mem_cons_self _ _)
    rw [segs_cons_ne c t hc, ih (fun hm => h (List.mem_cons_of_mem _ hm))]
    simp

theorem renderSegs_cons (s : Str) (ss : List Str) (h : ss ≠ []) :
    renderSegs (s :: ss) = s ++ '/' :: renderSegs ss := by
  cases ss with
  | nil => exact absurd rfl h
  | cons a as => rfl

theorem renderSegs_ne_nil (L : List Str) (h : L ≠ []) (h2 : ∀ s ∈ L, s ≠ []) :
    renderSegs L ≠ [] := by
  cases L with
  | nil => exact absurd rfl h
  | cons s ss =>
    cases ss with
    | nil => exact h2 s (List.mem_cons_self _ _)
    | cons a as =>
      rw [renderSegs_cons s _ (by simp)]
      cases hs : s with
      | nil => simp
      | cons c cs => simp

theorem renderSegs_append2 (L1 L2 : List Str) (h1 : L1 ≠ []) (h2 : L2 ≠ []) :
    renderSegs (L1 ++ L2) = renderSegs L1 ++ '/' :: renderSegs L2 := by
  induction L1 with
  | nil => exact absurd rfl h1
  | cons s ss ih =>
    cases hss : ss with
    | nil =>
      subst hss
      rw [List.cons_append, List.nil_append, renderSegs_cons s L2 h2]
      rfl
    | cons a as =>
      subst hss
      rw [List.cons_append, renderSegs_cons s (a :: as ++ L2) (by simp),
        renderSegs_cons s (a :: as) (by simp), ih (by simp)]
      simp

theorem segs_renderSegs (L : List Str) (h : L ≠ []) (h2 : ∀ s ∈ L, '/' ∉ s) :
    segs (renderSegs L) = L := by
  induction L with
  | nil => exact absurd rfl h
  | cons s ss ih =>
    cases hss : ss with
    | nil => subst hss; exact segs_no_slash_self s (h2 s (List.mem_cons_self _ _))
    | cons a as =>
      subst hss
      rw [renderSegs_cons s (a :: as) (by simp), segs_append_slash,
        segs_no_slash_self s (h2 s (List.mem_cons_self _ _)),
        ih (by simp) (fun x hx => h2 x (List.mem_cons_of_mem _ hx))]
      rfl

/-! ### Normalization lemmas -/

/-- A segment kept by canonical paths: nonempty, not `"."`, not `".."`. -/
def goodSeg (s : Str) : Prop := s ≠ [] ∧ s ≠ ['.'] ∧ s ≠ dd

/-- Whether a segment survives `normalizeString` when no `".."` occurs. -/
def keepSeg (s : Str) : Bool := !(s == [] || s == ['.'])

/-- Skipped and kept segments of a parent-link-free segment list. -/
def filterSegs (l : List Str) : List Str := l.filter keepSeg

theorem keepSeg_iff (s : Str) : keepSeg s = true ↔ (s ≠ [] ∧ s ≠ ['.']) := by
  simp [keepSeg]

theorem normStep_skip (ab : Bool) (st : List Str) (s : Str) (h : s = [] ∨ s = ['.']) :
    normStep ab st s = st := by
  simp [normStep, h]

theorem normStep_push (ab : Bool) (st : List Str) (s : Str) (h : goodSeg s) :
    normStep ab st s = s :: st := by
  obtain ⟨h1, h2, h3⟩ := h
  simp [normStep, h1, h2, dd] at *
  simp [normStep, h1, h2, h3]

theorem normAux_cons (ab : Bool) (st : List Str) (s : Str) (l : List Str) :
    normAux ab st (s :: l) = normAux ab (normStep ab st s) l := rfl

theorem normAux_append (ab : Bool) (st : List Str) (l1 l2 : List Str) :
    normAux ab st (l1 ++ l2) = normAux ab (normAux ab st l1) l2 :=
  List.foldl_append _ _ _ _

theorem normAux_push_good (ab : Bool) (L : List Str) (hL : ∀ s ∈ L, goodSeg s) :
    ∀ st, normAux ab st L = L.reverse ++ st := by
  induction L with
  | nil => intro st; rfl
  | cons s rest ih =>
    intro st
    rw [normAux_cons, normStep_push ab st s (hL s (List.mem_cons_self _ _)),
      ih (fun x hx => hL x (List.mem_cons_of_mem _ hx))]
    simp

theorem normAux_nodd (ab : Bool) (L : List Str) (hL : ∀ s ∈ L, s ≠ dd) :
    ∀ st, normAux ab st L = (filterSegs L).reverse ++ st := by
  induction L with
  | nil => intro st; simp [filterSegs, normAux]
  | cons s rest ih =>
    intro st
    have hrest : ∀ x ∈ rest, x ≠ dd := fun x hx => hL x (List.mem_cons_of_mem _ hx)
    by_cases h1 : s = [] ∨ s = ['.']
    · rw [normAux_cons, normStep_skip ab st s h1, ih hrest]
      have : keepSeg s = false := by
        rcases h1 with rfl | rfl <;> simp [keepSeg]
      simp [filterSegs, List.filter, this]
    · push_neg at h1
      have hg : goodSeg s := ⟨h1.1, h1.2, hL s (List.mem_cons_self _ _)⟩
      rw [normAux_cons, normStep_push ab st s hg, ih hrest]
      have : keepSeg s = true := (keepSeg_iff s).mpr h1
      simp [filterSegs, List.filter, this]

theorem normAux_false_good (L : List Str) :
    ∀ st, (∀ s ∈ st, goodSeg s) → ∀ s ∈ normAux false st L, goodSeg s := by
  induction L with
  | nil => intro st hst; exact hst
  | cons s rest ih =>
    intro st hst
    rw [normAux_cons]
    by_cases h1 : s = [] ∨ s = ['.']
    · rw [normStep_skip false st s h1]; exact ih st hst
    · by_cases h2 : s = ['.', '.']
      · cases st with
        | nil =>
          have : normStep false [] s = [] := by simp [normStep, h2]
          rw [this]; exact ih [] (by simp)
        | cons top stk =>
          have htop : top ≠ ['.', '.'] := by
            intro hh
            exact (hst top (List.mem_cons_self _ _)).2.2 (by simp [dd, hh])
          have : normStep false (top :: stk) s = stk := by
            simp [normStep, h2, h1, htop]
          rw [this]
          exact ih stk (fun x hx => hst x (List.mem_cons_of_mem _ hx))
      · push_neg at h1
        have hg : goodSeg s := ⟨h1.1, h1.2, by simpa [dd] using h2⟩
        rw [normStep_push false st s hg]
        refine ih (s :: st) ?_
        intro x hx
        rcases List.mem_cons.mp hx with rfl | hx
        · exact hg
        · exact hst x hx

theorem normAux_mem_src (ab : Bool) (L : List Str) :
    ∀ st, ∀ s ∈ normAux ab st L, s ∈ st ∨ s ∈ L ∨ s = dd := by
  induction L with
  | nil => intro st s hs; exact Or.inl hs
  | cons seg rest ih =>
    intro st s hs
    rw [normAux_cons] at hs
    have hstep : ∀ x ∈ normStep ab st seg, x ∈ st ∨ x = seg ∨ x = dd := by
      intro x hx
      by_cases h1 : seg = [] ∨ seg = ['.']
      · rw [normStep_skip ab st seg h1] at hx; exact Or.inl hx
      · by_cases h2 : seg = ['.', '.']
        · cases st with
          | nil =>
            have hst0 : normStep ab [] seg = if ab then [dd] else [] := by
              simp [normStep, h1, h2, dd]
            rw [hst0] at hx
            cases ab with
            | true => simp at hx; exact Or.inr (Or.inr hx)
            | false => simp at hx
          | cons top stk =>
            by_cases htop : top = ['.', '.']
            · have hst0 : normStep ab (top :: stk) seg = seg :: top :: stk := by
                simp [normStep, h1, h2, htop]
              rw [hst0] at hx
              rcases List.mem_cons.mp hx with rfl | hx
              · exact Or.inr (Or.inl rfl)
              · exact Or.inl hx
            · have hst0 : normStep ab (top :: stk) seg = stk := by
                simp [normStep, h1, h2, htop]
              rw [hst0] at hx
              exact Or.inl (List.mem_cons_of_mem _ hx)
        · push_neg at h1
          rw [normStep_push ab st seg ⟨h1.1, h1.2, by simpa [dd] using h2⟩] at hx
          rcases List.mem_cons.mp hx with rfl | hx
          · exact Or.inr (Or.inl rfl)
          · exact Or.inl hx
    rcases ih (normStep ab st seg) s hs with h | h | h
    · rcases hstep s h with h' | h' | h'
      · exact Or.inl h'
      · exact Or.inr (Or.inl (h' ▸ List.mem_cons_self _ _))
      · exact Or.inr (Or.inr h')
    · exact Or.inr (Or.inl (List.mem_cons_of_mem _ h))
    · exact Or.inr (Or.inr h)

theorem normAux_shape (L : List Str) :
    ∀ g k, (∀ s ∈ g, goodSeg s) →
      ∃ g2 k2, (∀ s ∈ g2, goodSeg s) ∧
        normAux true (g ++ List.replicate k dd) L = g2 ++ List.replicate k2 dd := by
  induction L with
  | nil => exact fun g k hg => ⟨g, k, hg, rfl⟩
  | cons seg rest ih =>
    intro g k hg
    rw [normAux_cons]
    by_cases h1 : seg = [] ∨ seg = ['.']
    · rw [normStep_skip true _ seg h1]; exact ih g k hg
    · by_cases h2 : seg = ['.', '.']
      · cases g with
        | nil =>
          cases k with
          | zero =>
            have : normStep true ([] : List Str) seg = [dd] := by
              simp [normStep, h1, h2, dd]
            rw [List.nil_append, List.replicate_zero] at *
            rw [this]
            have := ih [] 1 (by simp)
            simpa [dd] using this
          | succ k0 =>
            have hrepl : ([] : List Str) ++ List.replicate (k0 + 1) dd
                = dd :: List.replicate k0 dd := by simp [List.replicate_succ]
            rw [hrepl]
            have : normStep true (dd :: List.replicate k0 dd) seg
                = seg :: dd :: List.replicate k0 dd := by
              simp [normStep, h1, h2, dd]
            rw [this, h2]
            have := ih [] (k0 + 2) (by simp)
            simpa [dd, List.replicate_succ] using this
        | cons top g0 =>
          have htop : top ≠ ['.', '.'] := by
            intro hh
            exact (hg top (List.mem_cons_self _ _)).2.2 (by simp [dd, hh])
          have : normStep true ((top :: g0) ++ List.replicate k dd) seg
              = g0 ++ List.replicate k dd := by
            simp [normStep, h1, h2, htop]
          rw [this]
          exact ih g0 k (fun x hx => hg x (List.mem_cons_of_mem _ hx))
      · push_neg at h1
        have hgseg : goodSeg seg := ⟨h1.1, h1.2, by simpa [dd] using h2⟩
        rw [normStep_push true _ seg hgseg]
        have : seg :: (g ++ List.replicate k dd)
            = (seg :: g) ++ List.replicate k dd := by simp
        rw [this]
        refine ih (seg :: g) k ?_
        intro x hx
        rcases List.mem_cons.mp hx with rfl | hx
        · exact hgseg
        · exact hg x hx

theorem normStack_shape (L : List Str) :
    ∃ k g, (∀ s ∈ g, goodSeg s) ∧ normStack true L = List.replicate k dd ++ g := by
  obtain ⟨g2, k2, hg2, heq⟩ := normAux_shape L [] 0 (by simp)
  refine ⟨k2, g2.reverse, fun s hs => hg2 s (List.mem_reverse.mp hs), ?_⟩
  unfold normStack
  rw [show ([] : List Str) ++ List.replicate 0 dd = [] by simp] at heq
  rw [heq]
  simp [List.reverse_append, List.reverse_replicate]

theorem normStack_false_good (L : List Str) : ∀ s ∈ normStack false L, goodSeg s := by
  intro s hs
  exact normAux_false_good L [] (by simp) s (List.mem_reverse.mp hs)

theorem normStack_no_slash (L : List Str) (hL : ∀ s ∈ L, '/' ∉ s) (ab : Bool) :
    ∀ s ∈ normStack ab L, '/' ∉ s := by
  intro s hs
  rcases normAux_mem_src ab L [] s (List.mem_reverse.mp hs) with h | h | h
  · simp at h
  · exact hL s h
  · subst h; simp [dd]

/-! ### Shape of a normalized path -/

theorem segs_trail (core : List Str) (h : core ≠ []) (h2 : ∀ s ∈ core, '/' ∉ s) :
    segs (renderSegs core ++ ['/']) = core ++ [[]] := by
  have : (['/'] : Str) = '/' :: [] := rfl
  rw [this, segs_append_slash, segs_renderSegs core h h2]
  rfl

theorem assemble_abs (trail : Bool) (core : List Str) (h : core ≠ []) :
    assemble true trail core
      = '/' :: (renderSegs core ++ (if trail then ['/'] else [])) := by
  simp [assemble, h]

theorem assemble_rel (trail : Bool) (core : List Str) (h : core ≠ []) :
    assemble false trail core
      = renderSegs core ++ (if trail then ['/'] else []) := by
  simp [assemble, h]

/-- Every normalized path splits into some leading `".."` segments
followed by parent-link-free segments. -/
theorem pnormalize_shape (p : Str) :
    ∃ k rest, segs (pnormalize p) = List.replicate k dd ++ rest ∧
      ∀ s ∈ rest, s ≠ dd := by
  by_cases hp : p = []
  · subst hp
    refine ⟨0, [['.']], by simp [pnormalize, segs], ?_⟩
    simp [dd]
  · unfold pnormalize
    rw [if_neg hp]
    have hnos : ∀ ab, ∀ s ∈ normStack ab (segs p), '/' ∉ s :=
      fun ab => normStack_no_slash (segs p) (segs_no_slash p) ab
    cases habs : (p.head? == some '/') with
    | true =>
      simp only [habs, Bool.not_true]
      set core := normStack false (segs p) with hcore
      have hgood : ∀ s ∈ core, s ≠ dd :=
        fun s hs => (normStack_false_good (segs p) s hs).2.2
      by_cases hc : core = []
      · refine ⟨0, segs (assemble true (p.getLast? == some '/') core), by simp, ?_⟩
        rw [hc]
        cases htr : (p.getLast? == some '/') <;>
          · intro s hs
            simp [assemble, segs] at hs
            first
            | (rcases hs with rfl | rfl <;> simp [dd])
            | (subst hs; simp [dd])
      · refine ⟨0, segs (assemble true (p.getLast? == some '/') core), by simp, ?_⟩
        rw [assemble_abs _ core hc]
        cases htr : (p.getLast? == some '/') with
        | false =>
          simp only [if_neg (Bool.false_ne_true), List.append_nil]
          rw [segs_cons_slash, segs_renderSegs core hc (hnos false)]
          intro s hs
          rcases List.mem_cons.mp hs with rfl | hs
          · simp [dd]
          · exact hgood s hs
        | true =>
          rw [if_pos rfl, segs_cons_slash, segs_trail core hc (hnos false)]
          intro s hs
          rcases List.mem_cons.mp hs with rfl | hs
          · simp [dd]
          · rcases List.mem_append.mp hs with hs | hs
            · exact hgood s hs
            · simp at hs; subst hs; simp [dd]
    | false =>
      simp only [habs, Bool.not_false]
      obtain ⟨k, g, hg, hshape⟩ := normStack_shape (segs p)
      set core := normStack true (segs p) with hcore
      by_cases hc : core = []
      · refine ⟨0, segs (assemble false (p.getLast? == some '/') core), by simp, ?_⟩
        rw [hc]
        cases htr : (p.getLast? == some '/') <;>
          · intro s hs
            simp [assemble, segs] at hs
            first
            | (rcases hs with rfl | rfl <;> simp [dd])
            | (subst hs; simp [dd])
      · cases htr : (p.getLast? == some '/') with
        | false =>
          refine ⟨k, g, ?_, fun s hs => (hg s hs).2.2⟩
          rw [assemble_rel _ core hc]
          simp only [if_neg (Bool.false_ne_true), List.append_nil]
          rw [segs_renderSegs core hc (hnos true), hshape]
        | true =>
          refine ⟨k, g ++ [[]], ?_, ?_⟩
          · rw [assemble_rel _ core hc, if_pos rfl,
              segs_trail core hc (hnos true), hshape]
            simp
          · intro s hs
            rcases List.mem_append.mp hs with hs | hs
            · exact (hg s hs).2.2
            · simp at hs; subst hs; simp [dd]

/-! ### Stripping leading parent links -/

theorem segs_dd_slash (t : Str) : segs ('.' :: '.' :: '/' :: t) = dd :: segs t := by
  rw [segs_cons_ne _ _ (by decide), segs_cons_ne _ _ (by decide), segs_cons_slash]
  simp [dd]

theorem head_dd_cases (l : Str) (h : (segs l).headI = dd) :
    l = dd ∨ ∃ t, l = '.' :: '.' :: '/' :: t := by
  rw [segs_headI_takeWhile] at h
  match l with
  | [] => simp [List.takeWhile, dd] at h
  | c :: rest =>
    by_cases hc : c = '/'
    · rw [List.takeWhile_cons] at h
      simp [hc, dd] at h
    · rw [List.takeWhile_cons] at h
      have hb : (c == '/') = false := beq_eq_false_iff_ne.mpr hc
      simp only [hb, Bool.not_false, if_pos rfl] at h
      have hcd : c = '.' ∧ List.takeWhile (fun c => !(c == '/')) rest = ['.'] := by
        have := List.cons.injEq c _ '.' ['.'] ▸ h
        simpa [dd] using h
      obtain ⟨rfl, h2⟩ := hcd
      match rest with
      | [] => simp [List.takeWhile] at h2
      | d :: rest2 =>
        by_cases hd : d = '/'
        · rw [List.takeWhile_cons] at h2
          simp [hd] at h2
        · rw [List.takeWhile_cons] at h2
          have hb2 : (d == '/') = false := beq_eq_false_iff_ne.mpr hd
          simp only [hb2, Bool.not_false, if_pos rfl] at h2
          have hde : d = '.' ∧ List.takeWhile (fun c => !(c == '/')) rest2 = [] := by
            simpa using h2
          obtain ⟨rfl, h3⟩ := hde
          match rest2 with
          | [] => exact Or.inl rfl
          | e :: t =>
            by_cases he : e = '/'
            · exact Or.inr ⟨t, by rw [he]⟩
            · rw [List.takeWhile_cons] at h3
              have hb3 : (e == '/') = false := beq_eq_false_iff_ne.mpr he
              simp [hb3] at h3

theorem stripDots_dd : stripDots dd = dd := rfl

theorem stripDots_step_slash (t : Str) :
    stripDots ('.' :: '.' :: '/' :: t) = stripDots t := by
  simp [stripDots]

theorem stripDots_step_back (t : Str) :
    stripDots ('.' :: '.' :: '\\' :: t) = stripDots t := by
  simp [stripDots]

theorem stripDots_tailGood :
    ∀ (n : ℕ) (l : Str), l.length ≤ n → (∀ s ∈ (segs l).tail, s ≠ dd) →
      stripDots l = dd ∨ ∀ s ∈ segs (stripDots l), s ≠ dd := by
  intro n
  induction n with
  | zero =>
    intro l hl _
    have : l = [] := List.length_eq_zero.mp (Nat.le_zero.mp hl)
    subst this
    right
    intro s hs
    simp [stripDots, segs] at hs
    subst hs
    simp [dd]
  | succ n0 ih =>
    intro l hl h
    match l with
    | [] =>
      right
      intro s hs
      simp [stripDots, segs] at hs
      subst hs
      simp [dd]
    | [c] =>
      right
      intro s hs
      have hlen : s.length ≤ 1 := by
        by_cases hc : c = '/'
        · subst hc
          simp [stripDots, segs_cons_slash, segs] at hs
          rcases hs with rfl | rfl <;> simp
        · rw [show stripDots [c] = [c] from rfl,
            segs_no_slash_self [c] (by simp; exact fun hx => hc hx.symm)] at hs
          simp at hs
          subst hs
          simp
      intro hdd
      rw [hdd] at hlen
      simp [dd] at hlen
    | [c, d] =>
      by_cases hdd2 : ([c, d] : Str) = dd
      · left
        rw [show stripDots [c, d] = [c, d] from rfl, hdd2]
      · right
        rw [show stripDots [c, d] = [c, d] from rfl]
        intro s hs
        by_cases hc : c = '/' <;> by_cases hd : d = '/'
        · subst hc; subst hd
          simp [segs_cons_slash, segs] at hs
          rcases hs with rfl | rfl | rfl <;> simp [dd]
        · subst hc
          rw [segs_cons_slash,
            segs_no_slash_self [d] (by simp; exact fun hx => hd hx.symm)] at hs
          simp at hs
          rcases hs with rfl | rfl
          · simp [dd]
          · simp [dd]
        · subst hd
          have hsplit : ([c, '/'] : Str) = [c] ++ '/' :: [] := rfl
          rw [hsplit, segs_append_slash,
            segs_no_slash_self [c] (by simp; exact fun hx => hc hx.symm)] at hs
          simp [segs] at hs
          rcases hs with rfl | rfl
          · simp [dd]
          · simp [dd]
        · rw [segs_no_slash_self [c, d]
            (by simp; exact ⟨fun hx => hc hx.symm, fun hx => hd hx.symm⟩)] at hs
          simp at hs
          subst hs
          exact hdd2
    | c :: d :: e :: t =>
      by_cases hcond : c = '.' ∧ d = '.' ∧ (e = '/' ∨ e = '\\')
      · obtain ⟨rfl, rfl, he⟩ := hcond
        rcases he with rfl | rfl
        · rw [stripDots_step_slash]
          refine ih t (by simp at hl; omega) ?_
          intro s hs
          refine h s ?_
          rw [segs_dd_slash]
          exact List.mem_of_mem_tail hs
        · rw [stripDots_step_back]
          refine ih t (by simp at hl; omega) ?_
          intro s hs
          refine h s ?_
          rw [segs_tail_ne _ _ (by decide), segs_tail_ne _ _ (by decide),
            segs_tail_ne _ _ (by decide)]
          exact hs
      · have hself : stripDots (c :: d :: e :: t) = c :: d :: e :: t := by
          simp [stripDots, hcond]
        rw [hself]
        right
        intro s hs hsd
        subst hsd
        have hhd : (segs (c :: d :: e :: t)).headI = dd := by
          cases hsg : segs (c :: d :: e :: t) with
          | nil => exact absurd hsg (segs_ne_nil _)
          | cons s0 ss0 =>
            rcases List.mem_cons.mp (hsg ▸ hs) with rfl | hmem
            · simp
            · exact absurd rfl (h dd (by rw [hsg]; exact hmem))
        rcases head_dd_cases _ hhd with heq | ⟨t2, heq⟩
        · have hlen := congrArg List.length heq
          simp [dd] at hlen
        · have : c = '.' ∧ d = '.' ∧ e = '/' := by
            have h1 := congrArg (fun x => List.get? x 0) heq
            have h2 := congrArg (fun x => List.get? x 1) heq
            have h3 := congrArg (fun x => List.get? x 2) heq
            simp at h1 h2 h3
            exact ⟨h1, h2, h3⟩
          exact hcond ⟨this.1, this.2.1, Or.inl this.2.2⟩

theorem stripDots_safe :
    ∀ (k : ℕ) (l : Str) (rest : List Str),
      segs l = List.replicate k dd ++ rest → (∀ s ∈ rest, s ≠ dd) →
      stripDots l = dd ∨ ∀ s ∈ segs (stripDots l), s ≠ dd := by
  intro k
  induction k with
  | zero =>
    intro l rest hsg hrest
    refine stripDots_tailGood l.length l le_rfl ?_
    intro s hs
    refine hrest s ?_
    rw [List.replicate_zero, List.nil_append] at hsg
    exact List.mem_of_mem_tail (hsg ▸ hs)
  | succ k0 ih =>
    intro l rest hsg hrest
    have hhd : (segs l).headI = dd := by
      rw [hsg, List.replicate_succ]
      simp
    rcases head_dd_cases l hhd with rfl | ⟨t, rfl⟩
    · exact Or.inl stripDots_dd
    · have hsegs_t : segs t = List.replicate k0 dd ++ rest := by
        rw [segs_dd_slash, List.replicate_succ] at hsg
        simpa using hsg
      rw [stripDots_step_slash]
      exact ih t rest hsegs_t hrest

/-- The `safePath` computed by the listing route is either the bare
parent link `".."` or free of parent-link segments. -/
theorem safePath_shape (q : Str) :
    stripDots (pnormalize q) = dd ∨ ∀ s ∈ segs (stripDots (pnormalize q)), s ≠ dd := by
  obtain ⟨k, rest, h1, h2⟩ := pnormalize_shape q
  exact stripDots_safe k _ rest h1 h2

/-! ### Joining under the root -/

theorem mkRoot_ne_nil (R : List Str) : mkRoot R ≠ [] := by simp [mkRoot]

theorem segs_mkRoot (R : List Str) (hR : ∀ s ∈ R, segOK s) (h : R ≠ []) :
    segs (mkRoot R) = [] :: R := by
  unfold mkRoot
  rw [segs_cons_slash, segs_renderSegs R h (fun s hs => (hR s hs).2.2.2)]

theorem normAux_skip_push (R : List Str) (hR : ∀ s ∈ R, segOK s) (ab : Bool) :
    normAux ab [] ([] :: R) = R.reverse := by
  rw [normAux_cons, normStep_skip ab [] [] (Or.inl rfl),
    normAux_push_good ab R (fun s hs => ⟨(hR s hs).1, (hR s hs).2.1, (hR s hs).2.2.1⟩)]
  simp

theorem presolve_mkRoot (R : List Str) (hR : ∀ s ∈ R, segOK s) :
    presolve (mkRoot R) = mkRoot R := by
  by_cases h : R = []
  · subst h; rfl
  · unfold presolve normStack
    rw [segs_mkRoot R hR h, normAux_skip_push R hR false, List.reverse_reverse]
    rfl

theorem isPrefixOf_length {α : Type} [BEq α] :
    ∀ (l1 l2 : List α), l1.isPrefixOf l2 = true → l1.length ≤ l2.length := by
  intro l1
  induction l1 with
  | nil => intro l2 _; simp
  | cons a as ih =>
    intro l2 h
    cases l2 with
    | nil => simp [List.isPrefixOf] at h
    | cons b bs =>
      simp only [List.isPrefixOf, Bool.and_eq_true] at h
      simpa using Nat.succ_le_succ (ih bs h.2)

theorem isPrefixOf_append_self (l t : Str) : l.isPrefixOf (l ++ t) = true := by
  induction l with
  | nil => simp [List.isPrefixOf]
  | cons a as ih => simp [List.isPrefixOf, ih]

theorem renderSegs_length_dropLast (R : List Str) (h : R ≠ [])
    (h2 : ∀ s ∈ R, s ≠ []) :
    (renderSegs R.dropLast).length < (renderSegs R).length := by
  induction R with
  | nil => exact absurd rfl h
  | cons s ss ih =>
    cases hss : ss with
    | nil =>
      subst hss
      simp only [List.dropLast_single]
      have : s ≠ [] := h2 s (List.mem_cons_self _ _)
      have hlen : 0 < s.length := List.length_pos.mpr this
      simpa [renderSegs] using hlen
    | cons a as =>
      subst hss
      have hih := ih (by simp) (fun x hx => h2 x (List.mem_cons_of_mem _ hx))
      have hdl : (s :: a :: as).dropLast = s :: (a :: as).dropLast := rfl
      rw [hdl, renderSegs_cons s (a :: as) (by simp)]
      by_cases hd : (a :: as).dropLast = []
      · rw [hd]
        have h1 : renderSegs [s] = s := rfl
        rw [h1]
        simp only [List.length_append, List.length_cons]
        omega
      · rw [renderSegs_cons s _ hd]
        simp only [List.length_append, List.length_cons]
        omega

theorem pjoin_dd (R : List Str) (hR : ∀ s ∈ R, segOK s) :
    pjoin (mkRoot R) dd = mkRoot R.dropLast := by
  by_cases h : R = []
  · subst h; rfl
  · unfold pjoin
    rw [if_neg (mkRoot_ne_nil R), if_neg (by simp [dd])]
    have hj : mkRoot R ++ '/' :: dd ≠ [] := by simp [mkRoot]
    have hjoined : (mkRoot R ++ '/' :: dd) = '/' :: (renderSegs R ++ '/' :: dd) := by
      simp [mkRoot]
    rw [if_neg (show (dd : Str) ≠ [] from by simp [dd])]
    unfold pnormalize
    rw [if_neg hj]
    have hsegs : segs (mkRoot R ++ '/' :: dd) = ([] :: R) ++ [dd] := by
      rw [hjoined, segs_cons_slash, segs_append_slash,
        segs_renderSegs R h (fun s hs => (hR s hs).2.2.2),
        segs_no_slash_self dd (by simp [dd])]
      rfl
    have hhead : ((mkRoot R ++ '/' :: dd).head? == some '/') = true := by
      rw [hjoined]; simp
    have hlast : ((mkRoot R ++ '/' :: dd).getLast? == some '/') = false := by
      have hg : (mkRoot R ++ '/' :: dd).getLast? = some '.' := by
        rw [List.getLast?_append_of_ne_nil _ (by simp [dd])]
        rfl
      rw [hg]; simp
    rw [hhead, hlast]
    have hcore : normStack false (segs (mkRoot R ++ '/' :: dd)) = R.dropLast := by
      unfold normStack
      rw [hsegs, normAux_append, normAux_skip_push R hR false]
      cases hr : R.reverse with
      | nil => exact absurd (List.reverse_eq_nil_iff.mp hr) h
      | cons top stk =>
        have htop : top ≠ ['.', '.'] := by
          have hmem : top ∈ R := by
            rw [← List.mem_reverse, hr]; exact List.mem_cons_self _ _
          exact (hR top hmem).2.2.1
        have hone : normAux false (top :: stk) [dd] = stk := by
          rw [show normAux false (top :: stk) [dd]
            = normStep false (top :: stk) dd from rfl]
          simp [normStep, dd, htop]
        rw [hone]
        have hstk : stk = R.dropLast.reverse := by
          have h1 : R.reverse.tail = R.dropLast.reverse := List.tail_reverse R
          rw [hr] at h1
          simpa using h1
        rw [hstk, List.reverse_reverse]
    rw [Bool.not_true, hcore]
    by_cases hdl : R.dropLast = []
    · rw [hdl]
      rfl
    · rw [assemble_abs false R.dropLast hdl]
      simp [mkRoot]

theorem getLast?_renderSegs (L : List Str) (h : L ≠ []) (h2 : ∀ s ∈ L, s ≠ []) :
    (renderSegs L).getLast? = (L.getLast h).getLast? := by
  induction L with
  | nil => exact absurd rfl h
  | cons s ss ih =>
    cases ss with
    | nil => rfl
    | cons a as =>
      rw [renderSegs_cons s (a :: as) (by simp),
        List.getLast?_append_of_ne_nil _ (by simp),
        show ('/' :: renderSegs (a :: as)) = ['/'] ++ renderSegs (a :: as) from rfl,
        List.getLast?_append_of_ne_nil _
          (renderSegs_ne_nil _ (by simp) (fun x hx => h2 x (List.mem_cons_of_mem _ hx))),
        ih (by simp) (fun x hx => h2 x (List.mem_cons_of_mem _ hx))]
      exact congrArg List.getLast? (List.getLast_cons (by simp)).symm

theorem mkRoot_getLast_ne (R : List Str) (h : R ≠ []) (hR : ∀ s ∈ R, segOK s) :
    ((mkRoot R).getLast? == some '/') = false := by
  have h2 : ∀ s ∈ R, s ≠ [] := fun s hs => (hR s hs).1
  have hrne : renderSegs R ≠ [] := renderSegs_ne_nil R h h2
  have hml : (mkRoot R).getLast? = (R.getLast h).getLast? := by
    rw [show mkRoot R = ['/'] ++ renderSegs R from rfl,
      List.getLast?_append_of_ne_nil _ hrne, getLast?_renderSegs R h h2]
  have hlastmem : R.getLast h ∈ R := List.getLast_mem h
  have hlastne : R.getLast h ≠ [] := h2 _ hlastmem
  have hc : (R.getLast h).getLast? = some ((R.getLast h).getLast hlastne) :=
    List.getLast?_eq_getLast _ hlastne
  have hcm : (R.getLast h).getLast hlastne ∈ R.getLast h := List.getLast_mem hlastne
  have hcne : (R.getLast h).getLast hlastne ≠ '/' :=
    fun hh => (hR _ hlastmem).2.2.2 (hh ▸ hcm)
  rw [hml, hc]
  simpa using hcne

theorem pnormalize_mkRoot (R : List Str) (hR : ∀ s ∈ R, segOK s) :
    pnormalize (mkRoot R) = mkRoot R := by
  by_cases h : R = []
  · subst h; rfl
  · unfold pnormalize
    rw [if_neg (mkRoot_ne_nil R)]
    have hhead : ((mkRoot R).head? == some '/') = true := by simp [mkRoot]
    rw [hhead, mkRoot_getLast_ne R h hR, Bool.not_true]
    have hcore : normStack false (segs (mkRoot R)) = R := by
      unfold normStack
      rw [segs_mkRoot R hR h, normAux_skip_push R hR false, List.reverse_reverse]
    rw [hcore, assemble_abs false R h]
    simp [mkRoot]

/-- Resolving a canonical absolute path yields it back. -/
theorem presolve_canon_nt (C : List Str) (hC : ∀ s ∈ C, segOK s) :
    presolve ('/' :: renderSegs C) = mkRoot C := by
  by_cases h : C = []
  · subst h; rfl
  · unfold presolve normStack
    rw [segs_cons_slash, segs_renderSegs C h (fun s hs => (hC s hs).2.2.2),
      normAux_skip_push C hC false, List.reverse_reverse]
    rfl

/-- Resolving a canonical absolute path with a trailing separator
yields the canonical path without it. -/
theorem presolve_canon_tr (C : List Str) (hC : ∀ s ∈ C, segOK s) :
    presolve ('/' :: (renderSegs C ++ ['/'])) = mkRoot C := by
  by_cases h : C = []
  · subst h; rfl
  · unfold presolve normStack
    rw [segs_cons_slash, segs_trail C h (fun s hs => (hC s hs).2.2.2),
      show ([] : Str) :: (C ++ [[]]) = (([] :: C) ++ [[]]) from rfl,
      normAux_append, normAux_skip_push C hC false,
      show normAux false C.reverse [[]] = C.reverse from
        normStep_skip false C.reverse [] (Or.inl rfl),
      List.reverse_reverse]
    rfl

/-- Joining a parent-link-free relative path under a canonical root and
resolving yields the root extended by the surviving segments. -/
theorem pjoin_good (R : List Str) (hR : ∀ s ∈ R, segOK s) (r : Str)
    (hnd : ∀ s ∈ segs r, s ≠ dd) :
    (∀ s ∈ filterSegs (segs r), segOK s) ∧
      presolve (pjoin (mkRoot R) r) = mkRoot (R ++ filterSegs (segs r)) := by
  have hkeep : ∀ s ∈ filterSegs (segs r), segOK s := by
    intro s hs
    obtain ⟨hmem, hk⟩ := List.mem_filter.mp hs
    obtain ⟨h1, h2⟩ := (keepSeg_iff s).mp hk
    exact ⟨h1, h2, hnd s hmem, segs_no_slash r s hmem⟩
  refine ⟨hkeep, ?_⟩
  by_cases hr : r = []
  · subst hr
    have hf : filterSegs (segs ([] : Str)) = [] := by
      simp [segs, filterSegs, List.filter, keepSeg]
    have h1 : pjoin (mkRoot R) [] = pnormalize (mkRoot R) := by
      simp [pjoin, mkRoot]
    rw [hf, h1, pnormalize_mkRoot R hR, presolve_mkRoot R hR]
    simp
  · -- joined = mkRoot R ++ '/' :: r
    have hjoin : pjoin (mkRoot R) r = pnormalize (mkRoot R ++ '/' :: r) := by
      unfold pjoin
      rw [if_neg (mkRoot_ne_nil R), if_neg hr, if_neg (by simp [mkRoot])]
    rw [hjoin]
    have hcore : normStack false (segs (mkRoot R ++ '/' :: r))
        = R ++ filterSegs (segs r) := by
      by_cases h : R = []
      · subst h
        rw [show mkRoot [] ++ '/' :: r = '/' :: '/' :: r from rfl,
          segs_cons_slash, segs_cons_slash]
        unfold normStack
        rw [normAux_cons, normStep_skip false [] [] (Or.inl rfl),
          normAux_cons, normStep_skip false [] [] (Or.inl rfl),
          normAux_nodd false (segs r) hnd []]
        simp
      · rw [show mkRoot R ++ '/' :: r = '/' :: (renderSegs R ++ '/' :: r) from by
          simp [mkRoot], segs_cons_slash, segs_append_slash,
          segs_renderSegs R h (fun s hs => (hR s hs).2.2.2),
          show ([] : Str) :: (R ++ segs r) = ([] :: R) ++ segs r from rfl]
        unfold normStack
        rw [normAux_append, normAux_skip_push R hR false,
          normAux_nodd false (segs r) hnd R.reverse]
        simp
    have hCgood : ∀ s ∈ R ++ filterSegs (segs r), segOK s := by
      intro s hs
      rcases List.mem_append.mp hs with hs | hs
      · exact hR s hs
      · exact hkeep s hs
    unfold pnormalize
    rw [if_neg (by simp [mkRoot] : mkRoot R ++ '/' :: r ≠ [])]
    have hhead : ((mkRoot R ++ '/' :: r).head? == some '/') = true := by
      simp [mkRoot]
    rw [hhead, Bool.not_true, hcore]
    by_cases hC : R ++ filterSegs (segs r) = []
    · rw [hC]
      cases htr : ((mkRoot R ++ '/' :: r).getLast? == some '/') <;> rfl
    · cases htr : ((mkRoot R ++ '/' :: r).getLast? == some '/') with
      | false =>
        rw [assemble_abs _ _ hC]
        show presolve ('/' :: (renderSegs (R ++ filterSegs (segs r)) ++ [])) = _
        rw [List.append_nil]
        exact presolve_canon_nt _ hCgood
      | true =>
        rw [assemble_abs _ _ hC]
        show presolve ('/' :: (renderSegs (R ++ filterSegs (segs r)) ++ ['/'])) = _
        exact presolve_canon_tr _ hCgood

/-! ### Claim C1 -/

/-- Claim C1, counterexample to the stated mechanism: the containment
test of the listing route is a plain non-strict string-prefix
comparison, so on resolved values it accepts a sibling directory whose
name merely extends the root's name (root `/data`, path `/data-evil`),
which the claim says is rejected: the sibling passes the test although
it is neither the root nor below `/data/`. -/
theorem claim_c1_counterexample :
    containmentCheck "/data".data "/data-evil".data = true ∧
    "/data-evil".data ≠ "/data".data ∧
    List.isPrefixOf "/data/".data "/data-evil".data = false := by
  decide

/-- Claim C1 (amended): the containment test is a plain (non-strict)
string-prefix comparison of the resolved values, which by itself would
accept a sibling whose name extends the root's; nevertheless, because
the requested path is normalized, stripped of leading parent links and
joined under the root before the test, every untrusted request either
fails before any directory read or proceeds on a resolved absolute
path that is the canonical root or strictly below it — never a path
outside the root. -/
theorem listing_containment (R : List Str) (hR : ∀ s ∈ R, segOK s) (req p : Str)
    (h : resolveListingPath (mkRoot R) req = some p) :
    ∃ S, (∀ s ∈ S, segOK s) ∧ p = mkRoot (R ++ S) := by
  unfold resolveListingPath at h
  rcases safePath_shape (if req = [] then ['/'] else req) with hdd | hgood
  · rw [hdd, pjoin_dd R hR, presolve_mkRoot R hR,
      presolve_mkRoot R.dropLast (fun s hs => hR s (List.dropLast_subset R hs))] at h
    by_cases hRn : R = []
    · subst hRn
      refine ⟨[], by simp, ?_⟩
      have hck : containmentCheck (mkRoot []) (mkRoot ([] : List Str).dropLast) = true := by
        decide
      rw [hck, if_pos rfl] at h
      simpa using h.symm
    · have hck : containmentCheck (mkRoot R) (mkRoot R.dropLast) = false := by
        unfold containmentCheck
        by_contra hcon
        have hpre : (mkRoot R).isPrefixOf (mkRoot R.dropLast) = true := by
          revert hcon
          cases (mkRoot R).isPrefixOf (mkRoot R.dropLast) <;> simp
        have hlen := isPrefixOf_length _ _ hpre
        have hlt : (renderSegs R.dropLast).length < (renderSegs R).length :=
          renderSegs_length_dropLast R hRn (fun s hs => (hR s hs).1)
        simp [mkRoot] at hlen
        omega
      rw [hck] at h
      simp at h
  · obtain ⟨hFok, heq⟩ :=
      pjoin_good R hR (stripDots (pnormalize (if req = [] then ['/'] else req))) hgood
    rw [heq, presolve_mkRoot R hR] at h
    by_cases hck : containmentCheck (mkRoot R)
        (mkRoot (R ++ filterSegs (segs
          (stripDots (pnormalize (if req = [] then ['/'] else req)))))) = true
    · rw [hck, if_pos rfl] at h
      exact ⟨_, hFok, (Option.some.injEq _ _ ▸ h).symm⟩
    · rw [Bool.not_eq_true] at hck
      rw [hck] at h
      simp at h

/-- Witness for `listing_containment` at root `/app/public/files` and
the traversal request `/../etc/passwd`. -/
theorem listing_containment_witness :
    (∀ s ∈ ["app".data, "public".data, "files".data], segOK s) ∧
    (resolveListingPath (mkRoot ["app".data, "public".data, "files".data])
        "/../etc/passwd".data
      = some (mkRoot ["app".data, "public".data, "files".data,
          "etc".data, "passwd".data])) ∧
    ∃ S, (∀ s ∈ S, segOK s) ∧
      mkRoot ["app".data, "public".data, "files".data, "etc".data, "passwd".data]
        = mkRoot (["app".data, "public".data, "files".data] ++ S) :=
  ⟨by decide, by decide,
    listing_containment ["app".data, "public".data, "files".data] (by decide)
      "/../etc/passwd".data _ (by decide)⟩

/-! ### Node `path.extname` -/

/-- Scan state of Node's `extname`: mirrors the variables `startDot`,
`startPart`, `end`, `matchedSlash`, `preDotState` of the stdlib. -/
structure ExtSt where
  startDot : Int
  startPart : Nat
  endPos : Int
  matchedSlash : Bool
  preDot : Int

/-- Node `extname`'s backwards scan over `(index, char)` pairs. -/
def extScan : List (Nat × Char) → ExtSt → ExtSt
  | [], st => st
  | (i, c) :: rest, st =>
    if c = '/' then
      if !st.matchedSlash then { st with startPart := i + 1 }
      else extScan rest st
    else
      let st1 :=
        if st.endPos = -1 then { st with matchedSlash := false, endPos := (i : Int) + 1 }
        else st
      let st2 :=
        if c = '.' then
          if st1.startDot = -1 then { st1 with startDot := (i : Int) }
          else if st1.preDot ≠ 1 then { st1 with preDot := 1 } else st1
        else if st1.startDot ≠ -1 then { st1 with preDot := -1 } else st1
      extScan rest st2

/-- Final extraction step of Node's `extname` from the scan state. -/
def extCompute (p : Str) (st : ExtSt) : Str :=
  if st.startDot = -1 ∨ st.endPos = -1 ∨ st.preDot = 0 ∨
      (st.preDot = 1 ∧ st.startDot = st.endPos - 1 ∧ st.startDot = (st.startPart : Int) + 1) then
    []
  else (p.drop st.startDot.toNat).take (st.endPos.toNat - st.startDot.toNat)

/-- Node POSIX `path.extname`. -/
def extnameStr (p : Str) : Str :=
  extCompute p (extScan p.enum.reverse ⟨-1, 0, -1, true, 0⟩)

example : extnameStr "a.txt".data = ".txt".data := by decide
example : extnameStr ".bashrc".data = "".data := by decide
example : extnameStr "a.".data = ".".data := by decide
example : extnameStr "..".data = "".data := by decide
example : extnameStr "a.b.c".data = ".c".data := by decide
example : extnameStr "a".data = "".data := by decide
example : extnameStr "dir/file.txt".data = ".txt".data := by decide
example : extnameStr "".data = "".data := by decide

/-! ### Directory listing model (the files route `GET`) -/

/-- Model of `String.prototype.toLowerCase` restricted to ASCII letters (the
comparisons in the route involve file names). -/
def lcStr (s : Str) : Str := s.map Char.toLower

/-- Model of `String.prototype.includes`: substring containment. -/
def strIncludes : Str → Str → Bool
  | hay, needle =>
    if needle.isPrefixOf hay then true
    else
      match hay with
      | [] => false
      | _ :: t => strIncludes t needle

example : strIncludes "hello".data "ell".data = true := by decide
example : strIncludes "hello".data "elx".data = false := by decide
example : strIncludes "".data "".data = true := by decide

/-- Outcome of a successful `fs.stat`. -/
structure EStat where
  size : Nat
  mtime : Nat
deriving DecidableEq

/-- One entry of `fs.readdir(dir, {withFileTypes: true})` together with
the outcome of the subsequent `fs.stat` on it; `stat? = none` models a
stat that throws (e.g. a broken symlink). -/
structure RawEntry where
  name : Str
  isDir : Bool
  stat? : Option EStat
deriving DecidableEq

/-- The route's `FileItem` payload. -/
structure FileItem where
  name : Str
  isDir : Bool
  size : Nat
  mtime : Nat
  path : Str
  ext? : Option Str
deriving DecidableEq

/-- Lines 195-202: assemble one `FileItem` from an entry and its stat;
`relativePath = path.join(safePath, entry.name).replace(/\\/g, "/")`
with a leading separator enforced. -/
def buildItem (safePath : Str) (e : RawEntry) (st : EStat) : FileItem :=
  let rel := (pjoin safePath e.name).map (fun c => if c = '\\' then '/' else c)
  { name := e.name
    isDir := e.isDir
    size := st.size
    mtime := st.mtime
    path := if rel.head? = some '/' then rel else '/' :: rel
    ext? := if e.isDir then none else some ((extnameStr e.name).drop 1) }

/-- Lines 176-209: stat each child (a failing stat skips the entry),
apply the case-insensitive search filter and drop dot-prefixed names. -/
def listItems (safePath search : Str) (entries : List RawEntry) : List FileItem :=
  entries.filterMap (fun e =>
    match e.stat? with
    | none => none
    | some st =>
      if search ≠ [] ∧ strIncludes (lcStr e.name) (lcStr search) = false then none
      else if e.name.head? = some '.' then none
      else some (buildItem safePath e st))

/-- Lexicographic comparison of character lists. -/
def listLE : Str → Str → Bool
  | [], _ => true
  | _ :: _, [] => false
  | a :: as, b :: bs => if a < b then true else if b < a then false else listLE as bs

/-- Model of `String.prototype.localeCompare` under a fixed default
locale: case-insensitive lexicographic comparison with a raw
lexicographic tiebreak (`a ≤ b`). -/
def lcLe (a b : Str) : Bool :=
  if lcStr a = lcStr b then listLE a b else listLE (lcStr a) (lcStr b)

/-- Lines 225-230, the sort comparator as a total order: directories
first, then `localeCompare` on names. -/
def itemLE (a b : FileItem) : Prop :=
  (a.isDir = true ∧ b.isDir = false) ∨ (a.isDir = b.isDir ∧ lcLe a.name b.name = true)

instance (a b : FileItem) : Decidable (itemLE a b) := by
  unfold itemLE; infer_instance

/-- The sorted listing (lines 225-230). -/
def sortFiles (l : List FileItem) : List FileItem :=
  List.insertionSort itemLE l

/-- Line 112: `isNaN(page) || page < 1 ? 1 : page`; `none` models a
missing or unparseable `page` parameter. -/
def safePage : Option Int → Nat
  | none => 1
  | some v => if v < 1 then 1 else v.toNat

/-- Line 113: `isNaN(limit) || limit < 1 ? 20 : Math.min(limit, 100)`;
`none` models a missing or unparseable `limit` parameter. -/
def safeLimit : Option Int → Nat
  | none => 20
  | some v => if v < 1 then 20 else (min v 100).toNat

/-- Lines 233-237: `slice(startIndex, endIndex)`. -/
def pageSlice (l : List FileItem) (page limit : Nat) : List FileItem :=
  (l.drop ((page - 1) * limit)).take limit

/-- Line 237: `hasMore = endIndex < total`. -/
def hasMoreCalc (total page limit : Nat) : Bool :=
  (page - 1) * limit + limit < total

/-- The JSON shape of the listing response. -/
structure ListResponse where
  files : List FileItem
  total : Nat
  page : Nat
  hasMore : Bool
  errMsg : Option Str
  status : Nat
deriving DecidableEq

/-- Lines 158-244: the listing route after a successful path check, on
a directory snapshot. -/
def listGET (safePath search : Str) (entries : List RawEntry)
    (pageP limitP : Option Int) : ListResponse :=
  let sorted := sortFiles (listItems safePath search entries)
  { files := pageSlice sorted (safePage pageP) (safeLimit limitP)
    total := sorted.length
    page := safePage pageP
    hasMore := hasMoreCalc sorted.length (safePage pageP) (safeLimit limitP)
    errMsg := none
    status := 200 }

/-- Lines 128-138: the 404 response when the sandbox root is missing;
its message interpolates `STATIC_FILES_ROOT`. -/
def rootNotFoundResponse (root : Str) (page : Nat) : ListResponse :=
  { files := [], total := 0, page := page, hasMore := false,
    errMsg := some ("Root directory not found: ".data ++ root), status := 404 }

/-- Lines 210-221: the 404 response when the requested directory cannot
be read; its message interpolates the absolute `fullPath`. -/
def dirNotAccessibleResponse (fullPath : Str) (page : Nat) : ListResponse :=
  { files := [], total := 0, page := page, hasMore := false,
    errMsg := some ("Directory not accessible: ".data ++ fullPath), status := 404 }

/-! ### The comparator is a total preorder -/

theorem listLE_total : ∀ a b : Str, listLE a b = true ∨ listLE b a = true := by
  intro a
  induction a with
  | nil => intro b; left; rfl
  | cons x xs ih =>
    intro b
    cases b with
    | nil => right; rfl
    | cons y ys =>
      by_cases h1 : x < y
      · left; simp [listLE, h1]
      · by_cases h2 : y < x
        · right; simp [listLE, h2, asymm h2]
        · have hxy : x = y := le_antisymm (not_lt.mp h2) (not_lt.mp h1)
          subst hxy
          rcases ih ys with h | h
          · left; simp [listLE, h, lt_irrefl]
          · right; simp [listLE, h, lt_irrefl]

theorem listLE_trans :
    ∀ a b c : Str, listLE a b = true → listLE b c = true → listLE a c = true := by
  intro a
  induction a with
  | nil => intro b c _ _; rfl
  | cons x xs ih =>
    intro b c hab hbc
    cases b with
    | nil => simp [listLE] at hab
    | cons y ys =>
      cases c with
      | nil => simp [listLE] at hbc
      | cons z zs =>
        simp only [listLE] at hab hbc ⊢
        by_cases h1 : x < y
        · by_cases h2 : y < z
          · simp [lt_trans h1 h2]
          · by_cases h3 : z < y
            · simp [listLE, h2, h3] at hbc
            · have : y = z := le_antisymm (not_lt.mp h3) (not_lt.mp h2)
              subst this
              simp [h1]
        · by_cases h4 : y < x
          · simp [h1, h4] at hab
          · have : x = y := le_antisymm (not_lt.mp h4) (not_lt.mp h1)
            subst this
            simp [lt_irrefl] at hab
            by_cases h2 : x < z
            · simp [h2]
            · by_cases h3 : z < x
              · simp [h2, h3] at hbc
              · have : x = z := le_antisymm (not_lt.mp h3) (not_lt.mp h2)
                subst this
                simp [lt_irrefl] at hbc ⊢
                exact ih ys zs hab hbc

theorem listLE_antisymm :
    ∀ a b : Str, listLE a b = true → listLE b a = true → a = b := by
  intro a
  induction a with
  | nil =>
    intro b _ hba
    cases b with
    | nil => rfl
    | cons y ys => simp [listLE] at hba
  | cons x xs ih =>
    intro b hab hba
    cases b with
    | nil => simp [listLE] at hab
    | cons y ys =>
      simp only [listLE] at hab hba
      by_cases h1 : x < y
      · simp [h1, asymm h1] at hba
      · by_cases h2 : y < x
        · simp [h1, h2] at hab
        · have hxy : x = y := le_antisymm (not_lt.mp h2) (not_lt.mp h1)
          subst hxy
          simp [lt_irrefl] at hab hba
          rw [ih ys hab hba]

theorem lcLe_total (a b : Str) : lcLe a b = true ∨ lcLe b a = true := by
  unfold lcLe
  by_cases h : lcStr a = lcStr b
  · simp only [h, if_pos rfl, if_pos rfl]
    exact listLE_total a b
  · rw [if_neg h, if_neg (fun hh => h hh.symm)]
    exact listLE_total _ _

theorem lcLe_trans (a b c : Str) (hab : lcLe a b = true) (hbc : lcLe b c = true) :
    lcLe a c = true := by
  unfold lcLe at *
  by_cases h1 : lcStr a = lcStr b <;> by_cases h2 : lcStr b = lcStr c
  · rw [if_pos h1] at hab
    rw [if_pos h2] at hbc
    rw [if_pos (h1.trans h2)]
    exact listLE_trans a b c hab hbc
  · rw [if_pos h1] at hab
    rw [if_neg h2] at hbc
    rw [if_neg (fun hh => h2 (h1 ▸ hh)), h1]
    exact hbc
  · rw [if_neg h1] at hab
    rw [if_pos h2] at hbc
    rw [if_neg (fun hh => h1 (hh.trans h2.symm)), ← h2]
    exact hab
  · rw [if_neg h1] at hab
    rw [if_neg h2] at hbc
    by_cases h3 : lcStr a = lcStr c
    · exfalso
      rw [← h3] at hbc
      exact h1 (listLE_antisymm _ _ hab hbc)
    · rw [if_neg h3]
      exact listLE_trans _ _ _ hab hbc

theorem lcLe_antisymm (a b : Str) (hab : lcLe a b = true) (hba : lcLe b a = true) :
    a = b := by
  unfold lcLe at hab hba
  by_cases h : lcStr a = lcStr b
  · rw [if_pos h] at hab
    rw [if_pos h.symm] at hba
    exact listLE_antisymm a b hab hba
  · rw [if_neg h] at hab
    rw [if_neg (fun hh => h hh.symm)] at hba
    exact absurd (listLE_antisymm _ _ hab hba) h

instance : IsTotal FileItem itemLE := by
  constructor
  intro a b
  cases ha : a.isDir <;> cases hb : b.isDir
  · rcases lcLe_total a.name b.name with h | h
    · exact Or.inl (Or.inr ⟨ha.trans hb.symm, h⟩)
    · exact Or.inr (Or.inr ⟨hb.trans ha.symm, h⟩)
  · exact Or.inr (Or.inl ⟨hb, ha⟩)
  · exact Or.inl (Or.inl ⟨ha, hb⟩)
  · rcases lcLe_total a.name b.name with h | h
    · exact Or.inl (Or.inr ⟨ha.trans hb.symm, h⟩)
    · exact Or.inr (Or.inr ⟨hb.trans ha.symm, h⟩)

instance : IsTrans FileItem itemLE := by
  constructor
  intro a b c hab hbc
  rcases hab with ⟨ha, hb⟩ | ⟨hab1, hab2⟩
  · rcases hbc with ⟨hb2, hc⟩ | ⟨hbc1, hbc2⟩
    · rw [hb] at hb2; cases hb2
    · exact Or.inl ⟨ha, hbc1 ▸ hb⟩
  · rcases hbc with ⟨hb2, hc⟩ | ⟨hbc1, hbc2⟩
    · exact Or.inl ⟨hab1.trans hb2, hc⟩
    · exact Or.inr ⟨hab1.trans hbc1, lcLe_trans _ _ _ hab2 hbc2⟩

theorem sortFiles_perm (l : List FileItem) : List.Perm (sortFiles l) l :=
  List.perm_insertionSort itemLE l

theorem sortFiles_sorted (l : List FileItem) : (sortFiles l).Sorted itemLE :=
  List.sorted_insertionSort itemLE l

/-! ### Pagination lemmas -/

theorem pages_join (l : List FileItem) (L : Nat) :
    ∀ N, ((List.range N).flatMap fun i => (l.drop (i * L)).take L) = l.take (N * L) := by
  intro N
  induction N with
  | zero => simp
  | succ n ih =>
    rw [List.range_succ, List.flatMap_append, ih]
    have h1 : ([n].flatMap fun i => (l.drop (i * L)).take L) = (l.drop (n * L)).take L := by
      simp
    rw [h1, Nat.succ_mul, List.take_add]

theorem safeLimit_pos (x : Option Int) : 1 ≤ safeLimit x := by
  cases x with
  | none => simp [safeLimit]
  | some v =>
    simp only [safeLimit]
    by_cases h : v < 1
    · simp [h]
    · rw [if_neg h, Int.min_def]
      split <;> omega

theorem safeLimit_le (x : Option Int) : safeLimit x ≤ 100 := by
  cases x with
  | none => simp [safeLimit]
  | some v =>
    simp only [safeLimit]
    by_cases h : v < 1
    · simp [h]
    · rw [if_neg h, Int.min_def]
      split <;> omega

theorem listGET_files (safePath search : Str) (entries : List RawEntry)
    (pageP limitP : Option Int) :
    (listGET safePath search entries pageP limitP).files
      = ((sortFiles (listItems safePath search entries)).drop
          ((safePage pageP - 1) * safeLimit limitP)).take (safeLimit limitP) := rfl

theorem listGET_hasMore (safePath search : Str) (entries : List RawEntry)
    (pageP limitP : Option Int) :
    (listGET safePath search entries pageP limitP).hasMore = true ↔
      (safePage pageP - 1) * safeLimit limitP + safeLimit limitP
        < (sortFiles (listItems safePath search entries)).length := by
  show hasMoreCalc _ _ _ = true ↔ _
  unfold hasMoreCalc
  exact decide_eq_true_iff

/-! ### Claim C3 -/

/-- Claim C3: for a fixed directory snapshot and a fixed limit (after
the route's clamping), concatenating the pages returned for
page = 1, 2, … reconstructs exactly the filtered set of non-dot,
search-matching, stat-successful immediate children, with no
duplicates or omissions (a permutation of the filtered set), in the
fixed order: directories first, then name order per the comparator. -/
theorem claim_c3_pagination (safePath search : Str) (entries : List RawEntry)
    (limitP : Option Int) (N : Nat)
    (hN : (sortFiles (listItems safePath search entries)).length
        ≤ N * safeLimit limitP) :
    ((List.range N).flatMap fun i =>
        (listGET safePath search entries (some ((i : Int) + 1)) limitP).files)
      = sortFiles (listItems safePath search entries) ∧
    List.Perm (sortFiles (listItems safePath search entries))
      (listItems safePath search entries) ∧
    (sortFiles (listItems safePath search entries)).Sorted itemLE := by
  refine ⟨?_, sortFiles_perm _, sortFiles_sorted _⟩
  have hfiles : ∀ i : Nat,
      (listGET safePath search entries (some ((i : Int) + 1)) limitP).files
        = ((sortFiles (listItems safePath search entries)).drop
            (i * safeLimit limitP)).take (safeLimit limitP) := by
    intro i
    rw [listGET_files]
    have hpage : safePage (some ((i : Int) + 1)) = i + 1 := by
      simp only [safePage]
      rw [if_neg (by omega)]
      omega
    rw [hpage]
    simp
  simp only [hfiles]
  rw [pages_join, List.take_of_length_le hN]

/-- Witness for `claim_c3_pagination`: a three-entry snapshot paged
with limit 2 over two pages. -/
theorem claim_c3_pagination_witness :
    ((sortFiles (listItems "/".data "".data
        [⟨"b.txt".data, false, some ⟨3, 5⟩⟩,
         ⟨"docs".data, true, some ⟨0, 6⟩⟩,
         ⟨"a.txt".data, false, some ⟨2, 7⟩⟩])).length ≤ 2 * safeLimit (some 2)) ∧
    (((List.range 2).flatMap fun i =>
        (listGET "/".data "".data
          [⟨"b.txt".data, false, some ⟨3, 5⟩⟩,
           ⟨"docs".data, true, some ⟨0, 6⟩⟩,
           ⟨"a.txt".data, false, some ⟨2, 7⟩⟩] (some ((i : Int) + 1)) (some 2)).files)
      = sortFiles (listItems "/".data "".data
          [⟨"b.txt".data, false, some ⟨3, 5⟩⟩,
           ⟨"docs".data, true, some ⟨0, 6⟩⟩,
           ⟨"a.txt".data, false, some ⟨2, 7⟩⟩]) ∧
    List.Perm (sortFiles (listItems "/".data "".data
        [⟨"b.txt".data, false, some ⟨3, 5⟩⟩,
         ⟨"docs".data, true, some ⟨0, 6⟩⟩,
         ⟨"a.txt".data, false, some ⟨2, 7⟩⟩]))
      (listItems "/".data "".data
        [⟨"b.txt".data, false, some ⟨3, 5⟩⟩,
         ⟨"docs".data, true, some ⟨0, 6⟩⟩,
         ⟨"a.txt".data, false, some ⟨2, 7⟩⟩]) ∧
    (sortFiles (listItems "/".data "".data
        [⟨"b.txt".data, false, some ⟨3, 5⟩⟩,
         ⟨"docs".data, true, some ⟨0, 6⟩⟩,
         ⟨"a.txt".data, false, some ⟨2, 7⟩⟩])).Sorted itemLE) :=
  ⟨by decide,
    claim_c3_pagination "/".data "".data
      [⟨"b.txt".data, false, some ⟨3, 5⟩⟩,
       ⟨"docs".data, true, some ⟨0, 6⟩⟩,
       ⟨"a.txt".data, false, some ⟨2, 7⟩⟩] (some 2) 2 (by decide)⟩

/-! ### Claim C4 -/

/-- Claim C4: the returned page is the slice at
`offset = (page−1)×limit` of length `limit` from the sorted filtered
set, and `hasMore = (offset+limit < total)`; a limit greater than the
total yields `hasMore = false` and page 1 holds all entries; a missing,
unparseable or non-positive limit is clamped to the default 20, the
limit is capped at 100, and the clamped limit always lies in `[1,100]`
so no division or indexing fault is possible. -/
theorem claim_c4_pagination (safePath search : Str) (entries : List RawEntry)
    (pageP limitP : Option Int) :
    (listGET safePath search entries pageP limitP).files
      = ((sortFiles (listItems safePath search entries)).drop
          ((safePage pageP - 1) * safeLimit limitP)).take (safeLimit limitP) ∧
    ((listGET safePath search entries pageP limitP).hasMore = true ↔
      (safePage pageP - 1) * safeLimit limitP + safeLimit limitP
        < (sortFiles (listItems safePath search entries)).length) ∧
    1 ≤ safeLimit limitP ∧ safeLimit limitP ≤ 100 ∧
    safeLimit none = 20 ∧
    (∀ v : Int, v < 1 → safeLimit (some v) = 20) ∧
    ((sortFiles (listItems safePath search entries)).length < safeLimit limitP →
      (listGET safePath search entries pageP limitP).hasMore = false ∧
      (safePage pageP = 1 →
        (listGET safePath search entries pageP limitP).files
          = sortFiles (listItems safePath search entries))) := by
  refine ⟨listGET_files _ _ _ _ _, listGET_hasMore _ _ _ _ _,
    safeLimit_pos _, safeLimit_le _, rfl, ?_, ?_⟩
  · intro v hv
    simp [safeLimit, hv]
  · intro hlt
    constructor
    · have hn : ¬ ((safePage pageP - 1) * safeLimit limitP + safeLimit limitP
          < (sortFiles (listItems safePath search entries)).length) := by omega
      have := listGET_hasMore safePath search entries pageP limitP
      revert hn this
      cases (listGET safePath search entries pageP limitP).hasMore <;> simp
    · intro hp
      rw [listGET_files, hp]
      simp only [Nat.sub_self, Nat.zero_mul, List.drop_zero]
      exact List.take_of_length_le (by omega)

/-- Witness for `claim_c4_pagination`: limit 500 is capped, but with
only two matching entries the first page carries everything and
`hasMore` is false; a limit of `-3` clamps to 20. -/
theorem claim_c4_pagination_witness :
    ((listGET "/".data "".data
        [⟨"a.txt".data, false, some ⟨1, 1⟩⟩, ⟨"b.txt".data, false, some ⟨2, 2⟩⟩]
        (some 1) (some 500)).hasMore = false ∧
      safeLimit (some 500) = 100 ∧ safeLimit (some (-3)) = 20 ∧
      (listGET "/".data "".data
        [⟨"a.txt".data, false, some ⟨1, 1⟩⟩, ⟨"b.txt".data, false, some ⟨2, 2⟩⟩]
        (some 1) (some 500)).files
        = sortFiles (listItems "/".data "".data
            [⟨"a.txt".data, false, some ⟨1, 1⟩⟩, ⟨"b.txt".data, false, some ⟨2, 2⟩⟩])) :=
  ⟨((claim_c4_pagination "/".data "".data
        [⟨"a.txt".data, false, some ⟨1, 1⟩⟩, ⟨"b.txt".data, false, some ⟨2, 2⟩⟩]
        (some 1) (some 500)).2.2.2.2.2.2 (by decide)).1,
    by decide, by decide,
    ((claim_c4_pagination "/".data "".data
        [⟨"a.txt".data, false, some ⟨1, 1⟩⟩, ⟨"b.txt".data, false, some ⟨2, 2⟩⟩]
        (some 1) (some 500)).2.2.2.2.2.2 (by decide)).2 (by decide)⟩

/-! ### Claim C9 -/

theorem listItems_filter (safePath search : Str) (entries : List RawEntry) :
    listItems safePath search entries
      = listItems safePath search (entries.filter (fun e => e.stat?.isSome)) := by
  induction entries with
  | nil => rfl
  | cons e rest ih =>
    cases hst : e.stat? with
    | none =>
      have hf : ((e :: rest).filter (fun e => e.stat?.isSome))
          = rest.filter (fun e => e.stat?.isSome) := by
        simp [List.filter_cons, hst]
      rw [hf]
      unfold listItems at *
      rw [List.filterMap_cons]
      simp only [hst]
      exact ih
    | some st =>
      have hf : ((e :: rest).filter (fun e => e.stat?.isSome))
          = e :: rest.filter (fun e => e.stat?.isSome) := by
        simp [List.filter_cons, hst]
      rw [hf]
      unfold listItems at *
      rw [List.filterMap_cons, List.filterMap_cons, ih]

/-- Claim C9: a per-entry stat failure only omits that entry; the
request still succeeds (status 200, no error) and returns exactly what
it would return for the snapshot without the failing entries — a stat
failure is never surfaced as a whole-request error. -/
theorem claim_c9_stat_skip (safePath search : Str) (entries : List RawEntry)
    (pageP limitP : Option Int) :
    (listGET safePath search entries pageP limitP).status = 200 ∧
    (listGET safePath search entries pageP limitP).errMsg = none ∧
    listGET safePath search entries pageP limitP
      = listGET safePath search (entries.filter (fun e => e.stat?.isSome))
          pageP limitP := by
  refine ⟨rfl, rfl, ?_⟩
  unfold listGET
  rw [← listItems_filter]

/-! ### Claim C10 -/

/-- Claim C10: when the page number exceeds the last non-empty page
(`offset ≥ total`), the listing still succeeds with an empty slice,
`hasMore = false`, and `total` still the full count of matching
entries — no error and no out-of-bounds access. -/
theorem claim_c10_overpage (safePath search : Str) (entries : List RawEntry)
    (pageP limitP : Option Int)
    (h : (sortFiles (listItems safePath search entries)).length
        ≤ (safePage pageP - 1) * safeLimit limitP) :
    (listGET safePath search entries pageP limitP).files = [] ∧
    (listGET safePath search entries pageP limitP).hasMore = false ∧
    (listGET safePath search entries pageP limitP).total
      = (sortFiles (listItems safePath search entries)).length ∧
    (listGET safePath search entries pageP limitP).status = 200 ∧
    (listGET safePath search entries pageP limitP).errMsg = none := by
  refine ⟨?_, ?_, rfl, rfl, rfl⟩
  · rw [listGET_files, List.drop_eq_nil_of_le h]
    exact List.take_nil
  · have hpos := safeLimit_pos limitP
    have hn : ¬ ((safePage pageP - 1) * safeLimit limitP + safeLimit limitP
        < (sortFiles (listItems safePath search entries)).length) := by omega
    have hiff := listGET_hasMore safePath search entries pageP limitP
    revert hn hiff
    cases (listGET safePath search entries pageP limitP).hasMore <;> simp

/-- Witness for `claim_c10_overpage`: page 5, limit 2, two entries. -/
theorem claim_c10_overpage_witness :
    ((sortFiles (listItems "/".data "".data
        [⟨"a.txt".data, false, some ⟨1, 1⟩⟩, ⟨"b.txt".data, false, some ⟨2, 2⟩⟩])).length
      ≤ (safePage (some 5) - 1) * safeLimit (some 2)) ∧
    (listGET "/".data "".data
        [⟨"a.txt".data, false, some ⟨1, 1⟩⟩, ⟨"b.txt".data, false, some ⟨2, 2⟩⟩]
        (some 5) (some 2)).files = [] ∧
    (listGET "/".data "".data
        [⟨"a.txt".data, false, some ⟨1, 1⟩⟩, ⟨"b.txt".data, false, some ⟨2, 2⟩⟩]
        (some 5) (some 2)).hasMore = false ∧
    (listGET "/".data "".data
        [⟨"a.txt".data, false, some ⟨1, 1⟩⟩, ⟨"b.txt".data, false, some ⟨2, 2⟩⟩]
        (some 5) (some 2)).total = 2 :=
  ⟨by decide,
    (claim_c10_overpage "/".data "".data
      [⟨"a.txt".data, false, some ⟨1, 1⟩⟩, ⟨"b.txt".data, false, some ⟨2, 2⟩⟩]
      (some 5) (some 2) (by decide)).1,
    (claim_c10_overpage "/".data "".data
      [⟨"a.txt".data, false, some ⟨1, 1⟩⟩, ⟨"b.txt".data, false, some ⟨2, 2⟩⟩]
      (some 5) (some 2) (by decide)).2.1,
    by decide⟩

/-! ### Claim C8 -/

/-- Claim C8 is violated by the code: the two cited error responses of
the listing route interpolate the sandbox's absolute filesystem
location into the caller-visible message — for root
`/app/public/files`, both the missing-root message and the
unreadable-directory message contain the absolute root as a
substring. -/
theorem claim_c8_leak :
    (rootNotFoundResponse "/app/public/files".data 1).errMsg
        = some "Root directory not found: /app/public/files".data ∧
    strIncludes "Root directory not found: /app/public/files".data
        "/app/public/files".data = true ∧
    (dirNotAccessibleResponse "/app/public/files/nope".data 1).errMsg
        = some "Directory not accessible: /app/public/files/nope".data ∧
    strIncludes "Directory not accessible: /app/public/files/nope".data
        "/app/public/files".data = true := by
  decide

/-! ### Upload route model (the upload route `POST`) -/

/-- The sanitizing character class of line 77,
`/[^a-zA-Z0-9가-힣.\-_]/g`: ASCII letters, digits, Hangul syllables
(U+AC00 to U+D7A3), dot, dash, underscore. -/
def isSafeChar (c : Char) : Bool :=
  ('a' ≤ c ∧ c ≤ 'z') ∨ ('A' ≤ c ∧ c ≤ 'Z') ∨ ('0' ≤ c ∧ c ≤ '9') ∨
    (0xAC00 ≤ c.toNat ∧ c.toNat ≤ 0xD7A3) ∨ c = '.' ∨ c = '-' ∨ c = '_'

/-- Line 77: replace every character outside the safe set with `'_'`. -/
def sanitize (name : Str) : Str :=
  name.map (fun c => if isSafeChar c then c else '_')

example : sanitize "my file (1).txt".data = "my_file__1_.txt".data := by decide
example : sanitize "../../etc".data = ".._.._etc".data := by decide

/-- Decimal rendering of a natural number (JS template literal
`${counter}`), fuel-structured so the kernel can evaluate it. -/
def natStrAux : Nat → Nat → Str
  | 0, _ => []
  | fuel + 1, n =>
    if n < 10 then [Nat.digitChar n]
    else natStrAux fuel (n / 10) ++ [Nat.digitChar (n % 10)]

def natStr (n : Nat) : Str := natStrAux (n + 1) n

example : natStr 0 = "0".data := by decide
example : natStr 17 = "17".data := by decide
example : natStr 205 = "205".data := by decide

/-- Decode a decimal digit character. -/
def decDigit (c : Char) : Nat := c.toNat - 48

/-- Decode a decimal string. -/
def decNum (l : Str) : Nat := l.foldl (fun a c => 10 * a + decDigit c) 0

theorem decNum_append_digit (l : Str) (c : Char) :
    decNum (l ++ [c]) = 10 * decNum l + decDigit c := by
  unfold decNum
  rw [List.foldl_append]
  rfl

theorem decDigit_digitChar (n : Nat) (h : n < 10) :
    decDigit (Nat.digitChar n) = n := by
  interval_cases n <;> decide

theorem natStrAux_decode : ∀ fuel n, n < fuel → decNum (natStrAux fuel n) = n := by
  intro fuel
  induction fuel with
  | zero => intro n hn; omega
  | succ f ih =>
    intro n hn
    simp only [natStrAux]
    by_cases h : n < 10
    · rw [if_pos h]
      have : decNum [Nat.digitChar n] = decDigit (Nat.digitChar n) := by
        unfold decNum
        simp [List.foldl]
      rw [this, decDigit_digitChar n h]
    · rw [if_neg h, decNum_append_digit, ih (n / 10) (by omega),
        decDigit_digitChar (n % 10) (by omega)]
      omega

theorem natStr_inj (m n : Nat) (h : natStr m = natStr n) : m = n := by
  have hm := natStrAux_decode (m + 1) m (by omega)
  have hn := natStrAux_decode (n + 1) n (by omega)
  unfold natStr at h
  rw [h, hn] at hm
  omega

/-- Model of `path.basename(name, ext)` for a separator-free `name` (the
sanitized name contains no separators): strip `ext` when it is a
proper suffix. -/
def stripExt (name ext : Str) : Str :=
  if ext.isSuffixOf name ∧ name ≠ ext then name.take (name.length - ext.length)
  else name

/-- Model of `path.basename(p)`: the final path component, ignoring trailing
separators. -/
def pbasename (p : Str) : Str :=
  let q := p.reverse.dropWhile (fun c => c == '/')
  (q.takeWhile (fun c => !(c == '/'))).reverse

example : pbasename "/a/b/c.txt".data = "c.txt".data := by decide
example : pbasename "/a/b/".data = "b".data := by decide

/-- Lines 93-95: the k-th candidate name; `candName s 0 = s` and
`candName s k = nameWithoutExt ++ "_(" ++ k ++ ")" ++ ext` for
`k ≥ 1`, always derived from the sanitized name. -/
def candName (safeName : Str) : Nat → Str
  | 0 => safeName
  | Nat.succ k =>
    stripExt safeName (extnameStr safeName) ++ "_(".data ++ natStr (k + 1)
      ++ ")".data ++ extnameStr safeName

example : candName "a.txt".data 0 = "a.txt".data := by decide
example : candName "a.txt".data 1 = "a_(1).txt".data := by decide
example : candName "a.txt".data 2 = "a_(2).txt".data := by decide
example : candName "noext".data 1 = "noext_(1)".data := by decide

/-- Lines 87-102: the `while (true)` collision loop, fuel-structured.
It checks the current candidate with `fs.access` and moves to the next
counter while the candidate exists. -/
def findLoop (ex : Str → Bool) (cand : Nat → Str) : Nat → Nat → Str
  | 0, cur => cand cur
  | fuel + 1, cur => if ex (cand cur) then findLoop ex cand fuel (cur + 1) else cand cur

/-- Line 66: `path.extname(file.name).slice(1).toLowerCase()`. -/
def extOf (name : Str) : Str := lcStr ((extnameStr name).drop 1)

/-- The upload validation policy: `MAX_FILE_SIZE` and
`ALLOWED_EXTENSIONS`. -/
structure UploadPolicy where
  maxSize : Nat
  allowed : List Str
deriving DecidableEq

/-- One incoming payload of the `formData`. -/
structure UpFile where
  name : Str
  size : Nat
deriving DecidableEq

inductive UploadErr where
  | tooLarge
  | badType
deriving DecidableEq

/-- One element of the per-file `results` array. -/
structure UploadOutcome where
  name : Str
  savedAs : Option Str
  success : Bool
  err : Option UploadErr
deriving DecidableEq

/-- Lines 80-102: target directory and collision-free write path for a
sanitized name, over the model filesystem `fs` (the list of existing
absolute paths). -/
def placePath (root targetPath : Str) (fs : List Str) (safeName : Str) : Str :=
  findLoop (fun p => fs.contains p)
    (fun k => pjoin (pjoin root targetPath) (candName safeName k))
    (fs.length + 2) 0

/-- Lines 53-123: process one file of the batch: size check, extension
check, sanitize, place, write. Returns the outcome and the filesystem
after the step. -/
def processFile (pol : UploadPolicy) (root targetPath : Str) (fs : List Str)
    (f : UpFile) : UploadOutcome × List Str :=
  if pol.maxSize < f.size then
    (⟨f.name, none, false, some .tooLarge⟩, fs)
  else if pol.allowed.contains (extOf f.name) = false then
    (⟨f.name, none, false, some .badType⟩, fs)
  else
    let finalPath := placePath root targetPath fs (sanitize f.name)
    (⟨f.name, some (pbasename finalPath), true, none⟩, finalPath :: fs)

/-- The `for (const file of files)` loop, threading the filesystem. -/
def processBatch (pol : UploadPolicy) (root targetPath : Str) :
    List UpFile → List Str → List UploadOutcome × List Str
  | [], fs => ([], fs)
  | f :: rest, fs =>
    let r1 := processFile pol root targetPath fs f
    let r2 := processBatch pol root targetPath rest r1.2
    (r1.1 :: r2.1, r2.2)

/-- The JSON shape of the upload response. -/
structure UploadResponse where
  outcomes : List UploadOutcome
  successCount : Nat
  failCount : Nat
  status : Nat
deriving DecidableEq

/-- Lines 38-142: the upload route `POST`: empty batches are rejected
with 400, otherwise every file is processed and the per-file results
are returned with `successCount`/`failCount` in a 200 response. -/
def uploadPOST (pol : UploadPolicy) (root targetPath : Str) (files : List UpFile)
    (fs : List Str) : UploadResponse × List Str :=
  if files = [] then (⟨[], 0, 0, 400⟩, fs)
  else
    let r := processBatch pol root targetPath files fs
    (⟨r.1, (r.1.filter (fun o => o.success)).length,
      r.1.length - (r.1.filter (fun o => o.success)).length, 200⟩, r.2)

/-! ### Collision-free placement -/

theorem seg_head_ne (z : Str) (hz : segOK z) : (z.head? == some '/') = false := by
  cases z with
  | nil => exact absurd rfl hz.1
  | cons c cs =>
    have hc : c ≠ '/' := fun hh => hz.2.2.2 (hh ▸ List.mem_cons_self _ _)
    simpa using hc

theorem seg_last_ne (z : Str) (hz : segOK z) : (z.getLast? == some '/') = false := by
  have h1 : z.getLast? = some (z.getLast hz.1) := List.getLast?_eq_getLast _ hz.1
  have h2 : z.getLast hz.1 ∈ z := List.getLast_mem hz.1
  have h3 : z.getLast hz.1 ≠ '/' := fun hh => hz.2.2.2 (hh ▸ h2)
  rw [h1]
  simpa using h3

theorem pjoin_nil_seg (z : Str) (hz : segOK z) : pjoin [] z = z := by
  have h1 : pjoin [] z = pnormalize z := by
    simp [pjoin, hz.1]
  rw [h1]
  unfold pnormalize
  rw [if_neg hz.1, seg_head_ne z hz, seg_last_ne z hz, Bool.not_false]
  have hcore : normStack true (segs z) = [z] := by
    rw [segs_no_slash_self z hz.2.2.2]
    unfold normStack
    rw [show normAux true [] [z] = normStep true [] z from rfl,
      normStep_push true [] z ⟨hz.1, hz.2.1, hz.2.2.1⟩]
    rfl
  rw [hcore, assemble_rel false [z] (by simp)]
  simp [renderSegs]

theorem pjoin_cons_seg (td z : Str) (htd : td ≠ []) (hz : segOK z) :
    pjoin td z =
      (if (td.head? == some '/') = true then ['/'] else [])
        ++ renderSegs ((normAux (!(td.head? == some '/')) [] (segs td)).reverse ++ [z]) := by
  have hjoin : pjoin td z = pnormalize (td ++ '/' :: z) := by
    simp [pjoin, htd, hz.1]
  rw [hjoin]
  unfold pnormalize
  rw [if_neg (by simp [htd] : ¬ td ++ '/' :: z = [])]
  have hhead : (td ++ '/' :: z).head? = td.head? := List.head?_append_of_ne_nil td htd
  have hlast : ((td ++ '/' :: z).getLast? == some '/') = false := by
    rw [List.getLast?_append_of_ne_nil _ (by simp),
      show ('/' :: z) = ['/'] ++ z from rfl,
      List.getLast?_append_of_ne_nil _ hz.1]
    exact seg_last_ne z hz
  rw [hhead, hlast]
  have hsegs : segs (td ++ '/' :: z) = segs td ++ [z] := by
    rw [segs_append_slash, segs_no_slash_self z hz.2.2.2]
  have hcore : normStack (!(td.head? == some '/')) (segs (td ++ '/' :: z))
      = (normAux (!(td.head? == some '/')) [] (segs td)).reverse ++ [z] := by
    unfold normStack
    rw [hsegs, normAux_append,
      show normAux (!(td.head? == some '/'))
          (normAux (!(td.head? == some '/')) [] (segs td)) [z]
        = normStep (!(td.head? == some '/'))
            (normAux (!(td.head? == some '/')) [] (segs td)) z from rfl,
      normStep_push _ _ z ⟨hz.1, hz.2.1, hz.2.2.1⟩]
    simp
  rw [hcore]
  cases hb : (td.head? == some '/') with
  | false =>
    rw [assemble_rel _ _ (by simp)]
    simp
  | true =>
    rw [assemble_abs _ _ (by simp)]
    simp

theorem pjoin_seg_inj (td x y : Str) (hx : segOK x) (hy : segOK y)
    (h : pjoin td x = pjoin td y) : x = y := by
  by_cases htd : td = []
  · subst htd
    rwa [pjoin_nil_seg x hx, pjoin_nil_seg y hy] at h
  · rw [pjoin_cons_seg td x htd hx, pjoin_cons_seg td y htd hy] at h
    have h2 : renderSegs ((normAux (!(td.head? == some '/')) [] (segs td)).reverse ++ [x])
        = renderSegs ((normAux (!(td.head? == some '/')) [] (segs td)).reverse ++ [y]) := by
      cases hb : (td.head? == some '/') <;> rw [hb] at h <;> simpa using h
    cases hT : (normAux (!(td.head? == some '/')) [] (segs td)).reverse with
    | nil => simpa [hT] using h2
    | cons a as =>
      rw [hT, renderSegs_append2 _ [x] (by simp) (by simp),
        renderSegs_append2 _ [y] (by simp) (by simp)] at h2
      have h3 := List.append_cancel_left h2
      simpa using h3

theorem findLoop_free (ex : Str → Bool) (cand : Nat → Str) :
    ∀ fuel cur, (∃ k, k < fuel ∧ ex (cand (cur + k)) = false) →
      ex (findLoop ex cand fuel cur) = false ∧
      ∃ k, findLoop ex cand fuel cur = cand k := by
  intro fuel
  induction fuel with
  | zero =>
    intro cur h
    obtain ⟨k, hk, _⟩ := h
    omega
  | succ f ih =>
    intro cur h
    obtain ⟨k, hk, hfree⟩ := h
    by_cases hcur : ex (cand cur) = true
    · rw [show findLoop ex cand (f + 1) cur = findLoop ex cand f (cur + 1) from by
        simp [findLoop, hcur]]
      refine ih (cur + 1) ?_
      cases k with
      | zero =>
        rw [Nat.add_zero] at hfree
        rw [hfree] at hcur
        cases hcur
      | succ k0 =>
        exact ⟨k0, by omega, by rw [show cur + 1 + k0 = cur + (k0 + 1) from by omega]; exact hfree⟩
    · have hf : ex (cand cur) = false := by
        revert hcur
        cases ex (cand cur) <;> simp
      rw [show findLoop ex cand (f + 1) cur = cand cur from by simp [findLoop, hf]]
      exact ⟨hf, cur, rfl⟩

theorem exists_free_cand (fs : List Str) (cand : Nat → Str)
    (hinj : ∀ k j, cand (k + 1) = cand (j + 1) → k = j) :
    ∃ k, k < fs.length + 2 ∧ fs.contains (cand k) = false := by
  by_contra hcon
  push_neg at hcon
  have hall : ∀ k, k < fs.length + 1 → cand (k + 1) ∈ fs := by
    intro k hk
    have h1 := hcon (k + 1) (by omega)
    have h2 : fs.contains (cand (k + 1)) = true := by
      revert h1
      cases fs.contains (cand (k + 1)) <;> simp
    exact List.elem_iff.mp h2
  have hsub : (Finset.range (fs.length + 1)).image (fun k => cand (k + 1))
      ⊆ fs.toFinset := by
    intro x hx
    obtain ⟨k, hk, rfl⟩ := Finset.mem_image.mp hx
    exact List.mem_toFinset.mpr (hall k (Finset.mem_range.mp hk))
  have hcard1 : ((Finset.range (fs.length + 1)).image (fun k => cand (k + 1))).card
      = fs.length + 1 := by
    rw [Finset.card_image_of_injOn, Finset.card_range]
    intro a _ b _ hab
    exact hinj a b hab
  have hcard2 := Finset.card_le_card hsub
  have hcard3 := List.toFinset_card_le fs
  omega

theorem sanitize_no_sep (name : Str) : ∀ c ∈ sanitize name, c ≠ '/' ∧ c ≠ '\\' := by
  intro c hc
  obtain ⟨c0, _, hmap⟩ := List.mem_map.mp hc
  by_cases h : isSafeChar c0 = true
  · rw [if_pos h] at hmap
    subst hmap
    constructor <;> intro he <;> rw [he] at h <;> exact absurd h (by decide)
  · rw [if_neg h] at hmap
    subst hmap
    exact ⟨by decide, by decide⟩

theorem extname_subset (p : Str) : ∀ c ∈ extnameStr p, c ∈ p := by
  intro c hc
  unfold extnameStr extCompute at hc
  split at hc
  · simp at hc
  · exact List.drop_subset _ p (List.take_subset _ _ hc)

theorem stripExt_subset (nm e : Str) : ∀ c ∈ stripExt nm e, c ∈ nm := by
  intro c hc
  unfold stripExt at hc
  split at hc
  · exact List.take_subset _ nm hc
  · exact hc

theorem natStrAux_chars : ∀ fuel n c, c ∈ natStrAux fuel n → c ≠ '/' ∧ c ≠ '\\' := by
  intro fuel
  induction fuel with
  | zero => intro n c hc; simp [natStrAux] at hc
  | succ f ih =>
    intro n c hc
    simp only [natStrAux] at hc
    by_cases h : n < 10
    · rw [if_pos h] at hc
      simp at hc
      subst hc
      interval_cases n <;> exact ⟨by decide, by decide⟩
    · rw [if_neg h] at hc
      rcases List.mem_append.mp hc with hc | hc
      · exact ih (n / 10) c hc
      · simp at hc
        subst hc
        have h10 : n % 10 < 10 := Nat.mod_lt _ (by norm_num)
        interval_cases hm : (n % 10) <;> exact ⟨by decide, by decide⟩

theorem candName_no_sep (name : Str) (k : Nat) :
    ∀ c ∈ candName (sanitize name) k, c ≠ '/' ∧ c ≠ '\\' := by
  intro c hc
  cases k with
  | zero => exact sanitize_no_sep name c hc
  | succ k0 =>
    simp only [candName] at hc
    rcases List.mem_append.mp hc with hc | hc
    · rcases List.mem_append.mp hc with hc | hc
      · rcases List.mem_append.mp hc with hc | hc
        · rcases List.mem_append.mp hc with hc | hc
          · exact sanitize_no_sep name c
              (stripExt_subset _ _ c hc)
          · simp at hc
            rcases hc with rfl | rfl <;> exact ⟨by decide, by decide⟩
        · exact natStrAux_chars _ _ c hc
      · simp at hc
        subst hc
        exact ⟨by decide, by decide⟩
    · exact sanitize_no_sep name c (extname_subset _ c hc)

theorem natStr_ne_nil (n : Nat) : natStr n ≠ [] := by
  simp only [natStr, natStrAux]
  split
  · simp
  · simp

theorem candName_succ_len (s : Str) (k : Nat) : 4 ≤ (candName s (k + 1)).length := by
  simp only [candName]
  have h1 : 1 ≤ (natStr (k + 1)).length := List.length_pos.mpr (natStr_ne_nil _)
  simp only [List.length_append, List.length_cons, List.length_nil]
  omega

theorem candName_succ_segOK (name : Str) (k : Nat) :
    segOK (candName (sanitize name) (k + 1)) := by
  have hlen := candName_succ_len (sanitize name) k
  refine ⟨?_, ?_, ?_, ?_⟩
  · intro h; rw [h] at hlen; simp at hlen
  · intro h; rw [h] at hlen; simp at hlen
  · intro h; rw [h] at hlen; simp at hlen
  · intro hmem; exact (candName_no_sep name (k + 1) '/' hmem).1 rfl

theorem candName_succ_inj (s : Str) (k j : Nat)
    (h : candName s (k + 1) = candName s (j + 1)) : k = j := by
  simp only [candName, List.append_assoc] at h
  have h1 := List.append_cancel_left h
  have h2 := List.append_cancel_left h1
  have h3 := List.append_cancel_right h2
  have h4 := natStr_inj _ _ h3
  omega

theorem placePath_free (root targetPath : Str) (fs : List Str) (name : Str) :
    fs.contains (placePath root targetPath fs (sanitize name)) = false ∧
    ∃ k, placePath root targetPath fs (sanitize name)
        = pjoin (pjoin root targetPath) (candName (sanitize name) k) := by
  have hinj : ∀ k j,
      (fun k => pjoin (pjoin root targetPath) (candName (sanitize name) k)) (k + 1)
        = (fun k => pjoin (pjoin root targetPath) (candName (sanitize name) k)) (j + 1) →
      k = j := by
    intro k j h
    exact candName_succ_inj _ k j
      (pjoin_seg_inj _ _ _ (candName_succ_segOK name k) (candName_succ_segOK name j) h)
  obtain ⟨k, hk, hfree⟩ := exists_free_cand fs
    (fun k => pjoin (pjoin root targetPath) (candName (sanitize name) k)) hinj
  have hmain := findLoop_free (fun p => fs.contains p)
    (fun k => pjoin (pjoin root targetPath) (candName (sanitize name) k))
    (fs.length + 2) 0 ⟨k, hk, by simpa using hfree⟩
  unfold placePath
  exact hmain

/-! ### Claim C5 -/

/-- Claim C5: the stored filename is the sanitized original (every
character outside the safe set replaced by `'_'`), so it contains no
path separators, and neither does any disambiguated variant; the
chosen write path is always one of the candidate names with the
numeric disambiguator inserted before the extension, is never an
existing path (no silent overwrite), is the plain sanitized name when
that is free, and a second upload of the same name into the same
directory receives a distinct path. -/
theorem claim_c5_collision (root targetPath : Str) (fs : List Str) (name : Str) :
    (∀ c ∈ sanitize name, c ≠ '/' ∧ c ≠ '\\') ∧
    (∀ k, ∀ c ∈ candName (sanitize name) k, c ≠ '/' ∧ c ≠ '\\') ∧
    fs.contains (placePath root targetPath fs (sanitize name)) = false ∧
    (∃ k, placePath root targetPath fs (sanitize name)
        = pjoin (pjoin root targetPath) (candName (sanitize name) k)) ∧
    (fs.contains (pjoin (pjoin root targetPath) (sanitize name)) = false →
      placePath root targetPath fs (sanitize name)
        = pjoin (pjoin root targetPath) (sanitize name)) ∧
    placePath root targetPath
        (placePath root targetPath fs (sanitize name) :: fs) (sanitize name)
      ≠ placePath root targetPath fs (sanitize name) := by
  obtain ⟨hfree, hcand⟩ := placePath_free root targetPath fs name
  refine ⟨sanitize_no_sep name, fun k => candName_no_sep name k, hfree, hcand, ?_, ?_⟩
  · intro h0
    have h1 : fs.contains (pjoin (pjoin root targetPath)
        (candName (sanitize name) 0)) = false := h0
    unfold placePath
    rw [show fs.length + 2 = (fs.length + 1) + 1 from rfl]
    show (if fs.contains (pjoin (pjoin root targetPath) (candName (sanitize name) 0)) = true
        then _ else _) = _
    rw [h1]
    simp
    rfl
  · intro heq
    have h2 := (placePath_free root targetPath
      (placePath root targetPath fs (sanitize name) :: fs) name).1
    rw [heq] at h2
    have h3 : placePath root targetPath fs (sanitize name)
        ∈ placePath root targetPath fs (sanitize name) :: fs :=
      List.mem_cons_self _ _
    have h4 : (placePath root targetPath fs (sanitize name) :: fs).contains
        (placePath root targetPath fs (sanitize name)) = true := List.elem_iff.mpr h3
    rw [h2] at h4
    cases h4

/-! ### Claim C6 -/

theorem processFile_name (pol : UploadPolicy) (root tp : Str) (fs : List Str)
    (f : UpFile) : ((processFile pol root tp fs f).1).name = f.name := by
  unfold processFile
  split
  · rfl
  · split
    · rfl
    · rfl

theorem processFile_tooLarge (pol : UploadPolicy) (root tp : Str) (fs : List Str)
    (f : UpFile) (h : pol.maxSize < f.size) :
    (processFile pol root tp fs f).1 = ⟨f.name, none, false, some .tooLarge⟩ := by
  unfold processFile
  rw [if_pos h]

theorem processFile_badType (pol : UploadPolicy) (root tp : Str) (fs : List Str)
    (f : UpFile) (h1 : ¬ pol.maxSize < f.size)
    (h2 : pol.allowed.contains (extOf f.name) = false) :
    (processFile pol root tp fs f).1 = ⟨f.name, none, false, some .badType⟩ := by
  unfold processFile
  rw [if_neg h1, if_pos h2]

theorem processFile_ok (pol : UploadPolicy) (root tp : Str) (fs : List Str)
    (f : UpFile) (h1 : ¬ pol.maxSize < f.size)
    (h2 : pol.allowed.contains (extOf f.name) = true) :
    (processFile pol root tp fs f).1
      = ⟨f.name, some (pbasename (placePath root tp fs (sanitize f.name))), true, none⟩ := by
  unfold processFile
  rw [if_neg h1,
    if_neg (show ¬ pol.allowed.contains (extOf f.name) = false by rw [h2]; simp)]

theorem processBatch_length (pol : UploadPolicy) (root tp : Str) :
    ∀ (files : List UpFile) (fs : List Str),
      (processBatch pol root tp files fs).1.length = files.length := by
  intro files
  induction files with
  | nil => intro fs; rfl
  | cons g rest ih =>
    intro fs
    simp only [processBatch, List.length_cons]
    rw [ih]

theorem processBatch_get (pol : UploadPolicy) (root tp : Str) :
    ∀ (files : List UpFile) (fs : List Str) (i : Nat) (f : UpFile),
      files[i]? = some f →
      ∃ fsi, (processBatch pol root tp files fs).1[i]?
        = some ((processFile pol root tp fsi f).1) := by
  intro files
  induction files with
  | nil => intro fs i f h; simp at h
  | cons g rest ih =>
    intro fs i f h
    cases i with
    | zero =>
      simp at h
      subst h
      exact ⟨fs, by simp [processBatch]⟩
    | succ i0 =>
      simp at h
      obtain ⟨fsi, hfsi⟩ := ih (processFile pol root tp fs g).2 i0 f h
      exact ⟨fsi, by simp [processBatch, hfsi]⟩

/-- Claim C6: every file in a batch is validated independently —
an oversize file gets the size error, a disallowed extension gets the
type error, and a valid file succeeds (gets a stored name) no matter
what happens to its siblings; the 200 response carries one outcome per
file with the original name, plus `successCount` and `failCount`
summing to the batch size. -/
theorem claim_c6_batch (pol : UploadPolicy) (root targetPath : Str)
    (files : List UpFile) (fs : List Str) (hne : files ≠ []) :
    (uploadPOST pol root targetPath files fs).1.status = 200 ∧
    (uploadPOST pol root targetPath files fs).1.outcomes.length = files.length ∧
    (uploadPOST pol root targetPath files fs).1.successCount
        + (uploadPOST pol root targetPath files fs).1.failCount = files.length ∧
    (∀ (i : Nat) (f : UpFile), files[i]? = some f →
      ∃ o : UploadOutcome,
        (uploadPOST pol root targetPath files fs).1.outcomes[i]? = some o ∧
        o.name = f.name ∧
        (pol.maxSize < f.size → o = ⟨f.name, none, false, some .tooLarge⟩) ∧
        (f.size ≤ pol.maxSize → pol.allowed.contains (extOf f.name) = false →
          o = ⟨f.name, none, false, some .badType⟩) ∧
        (f.size ≤ pol.maxSize → pol.allowed.contains (extOf f.name) = true →
          o.success = true ∧ o.err = none ∧ ∃ s, o.savedAs = some s)) := by
  have hout : (uploadPOST pol root targetPath files fs).1.outcomes
      = (processBatch pol root targetPath files fs).1 := by
    simp [uploadPOST, hne]
  have hstatus : (uploadPOST pol root targetPath files fs).1.status = 200 := by
    simp [uploadPOST, hne]
  have hsc : (uploadPOST pol root targetPath files fs).1.successCount
      = ((processBatch pol root targetPath files fs).1.filter
          (fun o => o.success)).length := by
    simp [uploadPOST, hne]
  have hfc : (uploadPOST pol root targetPath files fs).1.failCount
      = (processBatch pol root targetPath files fs).1.length
        - ((processBatch pol root targetPath files fs).1.filter
            (fun o => o.success)).length := by
    simp [uploadPOST, hne]
  refine ⟨hstatus, ?_, ?_, ?_⟩
  · rw [hout, processBatch_length]
  · rw [hsc, hfc, processBatch_length]
    have hle := List.length_filter_le (fun o : UploadOutcome => o.success)
      (processBatch pol root targetPath files fs).1
    have := processBatch_length pol root targetPath files fs
    omega
  · intro i f hif
    obtain ⟨fsi, hfsi⟩ := processBatch_get pol root targetPath files fs i f hif
    refine ⟨(processFile pol root targetPath fsi f).1, by rw [hout]; exact hfsi,
      processFile_name _ _ _ _ _, ?_, ?_, ?_⟩
    · intro h
      exact processFile_tooLarge _ _ _ _ _ h
    · intro h1 h2
      exact processFile_badType _ _ _ _ _ (by omega) h2
    · intro h1 h2
      rw [processFile_ok _ _ _ _ _ (by omega) h2]
      exact ⟨rfl, rfl, _, rfl⟩

/-- Witness for `claim_c6_batch`: a batch of three where the first is
oversize, the second has a disallowed extension, and the third
succeeds and is stored. -/
theorem claim_c6_batch_witness :
    (([⟨"big.txt".data, 99⟩, ⟨"run.exe".data, 1⟩, ⟨"ok.txt".data, 1⟩]
        : List UpFile) ≠ []) ∧
    (uploadPOST ⟨10, ["txt".data]⟩ "/r".data "/up".data
        [⟨"big.txt".data, 99⟩, ⟨"run.exe".data, 1⟩, ⟨"ok.txt".data, 1⟩] []).1.outcomes
      = [⟨"big.txt".data, none, false, some .tooLarge⟩,
         ⟨"run.exe".data, none, false, some .badType⟩,
         ⟨"ok.txt".data, some "ok.txt".data, true, none⟩] ∧
    (uploadPOST ⟨10, ["txt".data]⟩ "/r".data "/up".data
        [⟨"big.txt".data, 99⟩, ⟨"run.exe".data, 1⟩, ⟨"ok.txt".data, 1⟩] []).1.successCount = 1 ∧
    (uploadPOST ⟨10, ["txt".data]⟩ "/r".data "/up".data
        [⟨"big.txt".data, 99⟩, ⟨"run.exe".data, 1⟩, ⟨"ok.txt".data, 1⟩] []).1.failCount = 2 ∧
    (uploadPOST ⟨10, ["txt".data]⟩ "/r".data "/up".data
        [⟨"big.txt".data, 99⟩, ⟨"run.exe".data, 1⟩, ⟨"ok.txt".data, 1⟩] []).1.status = 200 ∧
    ((uploadPOST ⟨10, ["txt".data]⟩ "/r".data "/up".data
        [⟨"big.txt".data, 99⟩, ⟨"run.exe".data, 1⟩, ⟨"ok.txt".data, 1⟩] []).1.successCount
      + (uploadPOST ⟨10, ["txt".data]⟩ "/r".data "/up".data
          [⟨"big.txt".data, 99⟩, ⟨"run.exe".data, 1⟩, ⟨"ok.txt".data, 1⟩] []).1.failCount = 3) :=
  ⟨by decide, by decide, by decide, by decide, by decide,
    (claim_c6_batch ⟨10, ["txt".data]⟩ "/r".data "/up".data
      [⟨"big.txt".data, 99⟩, ⟨"run.exe".data, 1⟩, ⟨"ok.txt".data, 1⟩] []
      (by decide)).2.2.1⟩

/-! ### Archive route model (the zip route `POST`) -/

/-- A filesystem snapshot for the archive route: the absolute paths of
files and of directories. -/
structure FSys where
  files : List Str
  dirs : List Str
deriving DecidableEq

/-- Model of `fs.stat`: `some true` for a directory, `some false` for a file,
`none` when stat throws (path missing). -/
def statKind (fsys : FSys) (p : Str) : Option Bool :=
  if fsys.dirs.contains p then some true
  else if fsys.files.contains p then some false
  else none

/-- One entry of the produced zip: its archive name and the source
path it is read from. -/
structure ZEntry where
  name : Str
  source : Str
deriving DecidableEq

/-- Lines 60-77 of the zip route: one requested path's contribution.
`fullPath = path.join(STATIC_FILES_ROOT, filePath)`;
`relativePath` strips one leading separator from the original path; a
directory contributes every descendant file under the `relativePath`
prefix (`archiver.directory`), a file is added directly
(`archive.file`), and a failing stat is caught and skipped. -/
def relPathOf (filePath : Str) : Str :=
  if filePath.head? = some '/' then filePath.drop 1 else filePath

def addOne (fsys : FSys) (root : Str) (filePath : Str) : List ZEntry :=
  match statKind fsys (pjoin root filePath) with
  | some true =>
    (fsys.files.filter
        (fun f => (pjoin root filePath ++ ['/']).isPrefixOf f)).map
      (fun f =>
        ⟨(if relPathOf filePath = [] then f.drop ((pjoin root filePath).length + 1)
          else relPathOf filePath ++ '/' :: f.drop ((pjoin root filePath).length + 1)), f⟩)
  | some false => [⟨relPathOf filePath, pjoin root filePath⟩]
  | none => []

/-- Lines 58-81: `addFilesToArchive` — process the requested paths in
order, concatenating their contributions. -/
def addFilesToArchive (fsys : FSys) (root : Str) (paths : List Str) : List ZEntry :=
  paths.flatMap (addOne fsys root)

/-! ### Claim C7 -/

/-- Claim C7, counterexample: for a nested directory request the
archive entry names are prefixed with the whole root-relative path
(`x/dirB/fileC`), not a name derived from the original path's final
segment (`dirB/fileC`). -/
theorem claim_c7_counterexample :
    addFilesToArchive
        ⟨["/r/x/dirB/fileC".data], ["/r/x".data, "/r/x/dirB".data]⟩
        "/r".data ["/x/dirB".data]
      = [⟨"x/dirB/fileC".data, "/r/x/dirB/fileC".data⟩] ∧
    "x/dirB/fileC".data ≠ "dirB/fileC".data := by
  decide

/-- Claim C7 (amended): each requested path that resolves to a file is
added directly under its root-relative name (leading separator
stripped); a path that resolves to a directory contributes exactly its
descendant files, preserving the relative directory structure under
the original path with its leading separator removed (the whole
root-relative path, not just its final segment); a path that fails
resolution contributes nothing and does not abort the remaining
entries, and the archive is exactly the concatenation of the
per-path contributions. -/
theorem claim_c7_archive (fsys : FSys) (root : Str) (pre post : List Str) (bad : Str)
    (hbad : statKind fsys (pjoin root bad) = none) :
    addFilesToArchive fsys root (pre ++ bad :: post)
      = addFilesToArchive fsys root (pre ++ post) ∧
    (∀ p, statKind fsys (pjoin root p) = some false →
      addOne fsys root p = [⟨relPathOf p, pjoin root p⟩]) ∧
    (∀ p, statKind fsys (pjoin root p) = some true →
      addOne fsys root p
        = (fsys.files.filter (fun f => (pjoin root p ++ ['/']).isPrefixOf f)).map
            (fun f =>
              ⟨(if relPathOf p = []
                then f.drop ((pjoin root p).length + 1)
                else relPathOf p ++ '/' :: f.drop ((pjoin root p).length + 1)), f⟩)) ∧
    addFilesToArchive fsys root (pre ++ post)
      = addFilesToArchive fsys root pre ++ addFilesToArchive fsys root post := by
  refine ⟨?_, ?_, ?_, ?_⟩
  · unfold addFilesToArchive
    rw [List.flatMap_append, List.flatMap_append]
    have hone : addOne fsys root bad = [] := by
      unfold addOne
      rw [hbad]
    simp [hone]
  · intro p hp
    unfold addOne
    rw [hp]
  · intro p hp
    unfold addOne
    rw [hp]
  · unfold addFilesToArchive
    exact List.flatMap_append _ _ _

/-- Witness for `claim_c7_archive`, realizing the specification's
example: archiving `[fileA, dirB]` where `dirB` holds `fileC`, `fileD`
yields exactly `{fileA, dirB/fileC, dirB/fileD}`, and when `fileA` is
missing the archive still completes with only the `dirB` entries. -/
theorem claim_c7_archive_witness :
    statKind ⟨["/r/dirB/fileC".data, "/r/dirB/fileD".data], ["/r/dirB".data]⟩
        (pjoin "/r".data "/fileA".data) = none ∧
    addFilesToArchive
        ⟨["/r/fileA".data, "/r/dirB/fileC".data, "/r/dirB/fileD".data], ["/r/dirB".data]⟩
        "/r".data ["/fileA".data, "/dirB".data]
      = [⟨"fileA".data, "/r/fileA".data⟩,
         ⟨"dirB/fileC".data, "/r/dirB/fileC".data⟩,
         ⟨"dirB/fileD".data, "/r/dirB/fileD".data⟩] ∧
    addFilesToArchive
        ⟨["/r/dirB/fileC".data, "/r/dirB/fileD".data], ["/r/dirB".data]⟩
        "/r".data (([] : List Str) ++ "/fileA".data :: ["/dirB".data])
      = addFilesToArchive
          ⟨["/r/dirB/fileC".data, "/r/dirB/fileD".data], ["/r/dirB".data]⟩
          "/r".data (([] : List Str) ++ ["/dirB".data]) ∧
    addFilesToArchive
        ⟨["/r/dirB/fileC".data, "/r/dirB/fileD".data], ["/r/dirB".data]⟩
        "/r".data ["/dirB".data]
      = [⟨"dirB/fileC".data, "/r/dirB/fileC".data⟩,
         ⟨"dirB/fileD".data, "/r/dirB/fileD".data⟩] :=
  ⟨by decide, by decide,
    (claim_c7_archive
      ⟨["/r/dirB/fileC".data, "/r/dirB/fileD".data], ["/r/dirB".data]⟩
      "/r".data [] ["/dirB".data] "/fileA".data (by decide)).1,
    by decide⟩

/-! ### Claim C2 -/

/-- Claim C2 is violated by the code: neither the upload route nor the
archive route performs any containment check. An upload with target
path `/../evil` under root `/app/files` succeeds and writes to
`/app/evil/a.txt`, outside the root; an archive request for
`/../secret.txt` reads `/app/secret.txt`, outside the root. -/
theorem claim_c2_no_containment :
    ((processFile ⟨10, ["txt".data]⟩ "/app/files".data "/../evil".data []
        ⟨"a.txt".data, 1⟩).1.success = true ∧
      (processFile ⟨10, ["txt".data]⟩ "/app/files".data "/../evil".data []
        ⟨"a.txt".data, 1⟩).2 = ["/app/evil/a.txt".data] ∧
      List.isPrefixOf "/app/files/".data "/app/evil/a.txt".data = false ∧
      "/app/evil/a.txt".data ≠ "/app/files".data) ∧
    (addFilesToArchive ⟨["/app/secret.txt".data], []⟩ "/app/files".data
        ["/../secret.txt".data]
      = [⟨"../secret.txt".data, "/app/secret.txt".data⟩] ∧
      List.isPrefixOf "/app/files/".data "/app/secret.txt".data = false ∧
      "/app/secret.txt".data ≠ "/app/files".data) := by
  decide

end FB
